import Mathlib

/-!
# Verification of the `vex` text-editing core

Shallow embedding of the gap-buffer text store, position/offset conversion,
search, undo/redo history, save-point tracking and tab management of the
`vex` terminal editor (Go sources under `internal/editor`), together with
proofs of the testable properties stated in its design specification.

Go strings are modelled as `List Char` (Go runes); Go `int` arguments are
modelled as `Int`, with the same clamping the source performs.  Byte-level
string operations (Go `strings.Index` over UTF-8 bytes) are modelled over
the UTF-8 encoding of the rune sequence.  Functions whose Go counterparts
can panic return `Option` (`none` = panic).  The undo/redo stacks are
represented head-as-top (the Go code uses the slice end as top).
-/

namespace Vex

/-- Go's zero rune, returned by `Buffer.RuneAt` out of range and filling
fresh gap space (`make([]rune, n)` zero-initialises). -/
def nulChar : Char := Char.ofNat 0

/-- `initialGapSize` constant from `buffer.go`. -/
def initialGapSize : Nat := 1024

/-- Clamp an `int` position into `[0, len]`, as `Buffer.moveGapTo` does. -/
def clampPos (pos : Int) (len : Nat) : Nat := (min (max pos 0) (len : Int)).toNat

/-- The gap buffer of `buffer.go`: rune array `data` with an unused gap
`[gapStart, gapEnd)`, a cache `lines` of line start offsets, a modified
flag, and file metadata. -/
structure Buffer where
  data : List Char
  gapStart : Nat
  gapEnd : Nat
  lines : List Nat
  modified : Bool
  filepath : List Char
  encoding : List Char
  lineEnding : List Char
deriving Repr, DecidableEq

/-- `NewBuffer` from `buffer.go`. -/
def NewBuffer : Buffer :=
  { data := List.replicate initialGapSize nulChar
    gapStart := 0
    gapEnd := initialGapSize
    lines := [0]
    modified := false
    filepath := []
    encoding := "UTF-8".toList
    lineEnding := ['\n'] }

/-- `Buffer.Length`: number of runes excluding the gap. -/
def Buffer.Length (b : Buffer) : Nat := b.data.length - (b.gapEnd - b.gapStart)

/-- `Buffer.gapSize`. -/
def Buffer.gapSize (b : Buffer) : Nat := b.gapEnd - b.gapStart

/-- `Buffer.Content`: the text before the gap followed by the text after it. -/
def Buffer.Content (b : Buffer) : List Char := b.data.take b.gapStart ++ b.data.drop b.gapEnd

/-- `Buffer.moveGapTo`: clamp the position and relocate the gap to it by
copying the intervening runes across the gap (the vacated region keeps its
stale contents, exactly as Go's `copy` leaves it). -/
def Buffer.moveGapTo (b : Buffer) (pos : Int) : Buffer :=
  if clampPos pos b.Length < b.gapStart then
    { b with
      data := b.data.take (b.gapEnd - (b.gapStart - clampPos pos b.Length))
                ++ (b.data.drop (clampPos pos b.Length)).take (b.gapStart - clampPos pos b.Length)
                ++ b.data.drop b.gapEnd
      gapStart := clampPos pos b.Length
      gapEnd := b.gapEnd - (b.gapStart - clampPos pos b.Length) }
  else if clampPos pos b.Length > b.gapStart then
    { b with
      data := b.data.take b.gapStart
                ++ (b.data.drop b.gapEnd).take (clampPos pos b.Length - b.gapStart)
                ++ b.data.drop (b.gapStart + (clampPos pos b.Length - b.gapStart))
      gapStart := clampPos pos b.Length
      gapEnd := b.gapEnd + (clampPos pos b.Length - b.gapStart) }
  else b

/-- `Buffer.expandGap`: grow the gap to `max (max (2·gap) minSize) 1024`;
the fresh gap region is zero-initialised by Go's `make`. -/
def Buffer.expandGap (b : Buffer) (minSize : Nat) : Buffer :=
  if b.gapSize ≥ minSize then b
  else
    { b with
      data := b.data.take b.gapStart
                ++ List.replicate (max (max (b.gapSize * 2) minSize) initialGapSize) nulChar
                ++ b.data.drop b.gapEnd
      gapEnd := b.gapStart + max (max (b.gapSize * 2) minSize) initialGapSize }

/-- `Buffer.RuneAt`: rune at a position, rune 0 when out of range. -/
def Buffer.RuneAt (b : Buffer) (pos : Int) : Char :=
  if pos < 0 ∨ pos ≥ (b.Length : Int) then nulChar
  else if pos.toNat < b.gapStart then b.data.getD pos.toNat nulChar
  else b.data.getD (pos.toNat + (b.gapEnd - b.gapStart)) nulChar

/-- One step of `rebuildLineIndex`: record `i+1` when the rune at `i` is a
newline. -/
def Buffer.nlMark (b : Buffer) (i : Nat) : Option Nat :=
  if b.RuneAt (i : Int) = '\n' then some (i + 1) else none

/-- The line-start list `rebuildLineIndex` computes: offset 0 followed by
`i+1` for every `i` with rune `'\n'` at `i`. -/
def Buffer.mkLines (b : Buffer) : List Nat :=
  0 :: (List.range b.Length).filterMap b.nlMark

/-- `Buffer.rebuildLineIndex`. -/
def Buffer.rebuildLineIndex (b : Buffer) : Buffer := { b with lines := b.mkLines }

/-- Write `text` into the gap (Go's `copy(b.data[b.gapStart:], runes)`
followed by `gapStart += len(runes)`; the gap is large enough when called). -/
def Buffer.insertAtGap (b : Buffer) (text : List Char) : Buffer :=
  { b with
    data := b.data.take b.gapStart ++ text ++ b.data.drop (b.gapStart + text.length)
    gapStart := b.gapStart + text.length
    modified := true }

/-- `Buffer.Insert`: no-op on empty text, otherwise move the gap to the
(clamped) position, ensure capacity, write the runes into the gap. -/
def Buffer.Insert (b : Buffer) (pos : Int) (text : List Char) : Buffer :=
  if text.length = 0 then b
  else (((b.moveGapTo pos).expandGap text.length).insertAtGap text).rebuildLineIndex

/-- The clamped deletion count of `Buffer.Delete` (`count` capped at the
distance from `pos` to the end). -/
def delClamp (len : Nat) (pos count : Int) : Nat :=
  if pos + count > (len : Int) then len - pos.toNat else count.toNat

/-- Widen the gap over the next `count` runes (`gapEnd += count`). -/
def Buffer.dropAtGap (b : Buffer) (count : Nat) : Buffer :=
  { b with gapEnd := b.gapEnd + count, modified := true }

/-- `Buffer.Delete`: no-op returning `""` when `count ≤ 0` or `pos` out of
bounds; clamps `count` to the end; returns the removed runes. -/
def Buffer.Delete (b : Buffer) (pos count : Int) : Buffer × List Char :=
  if count ≤ 0 ∨ pos < 0 ∨ pos ≥ (b.Length : Int) then (b, [])
  else
    (((b.moveGapTo pos).dropAtGap (delClamp b.Length pos count)).rebuildLineIndex,
     ((b.moveGapTo pos).data.drop (b.moveGapTo pos).gapEnd).take (delClamp b.Length pos count))

/-- `Buffer.Modified`. -/
def Buffer.Modified (b : Buffer) : Bool := b.modified

/-- Structural well-formedness of the gap: `gapStart ≤ gapEnd ≤ len data`. -/
def Buffer.Wf (b : Buffer) : Prop := b.gapStart ≤ b.gapEnd ∧ b.gapEnd ≤ b.data.length

instance (b : Buffer) : Decidable b.Wf := by unfold Buffer.Wf; infer_instance

/-! ## Reference model

The naive dynamic-array-of-characters model from the specification's
round-trip property, applying the same clamping of offsets and counts as
the gap buffer. -/

/-- Reference insert on a plain character list (clamping as the store). -/
def refInsert (s : List Char) (pos : Int) (text : List Char) : List Char :=
  if text.length = 0 then s
  else s.take (clampPos pos s.length) ++ text ++ s.drop (clampPos pos s.length)

/-- Reference delete on a plain character list (same guards and clamping);
returns the new list and the removed text. -/
def refDelete (s : List Char) (pos count : Int) : List Char × List Char :=
  if count ≤ 0 ∨ pos < 0 ∨ pos ≥ (s.length : Int) then (s, [])
  else
    (s.take pos.toNat ++ s.drop (pos.toNat + delClamp s.length pos count),
     (s.drop pos.toNat).take (delClamp s.length pos count))

/-- An edit operation applied to the text store. -/
inductive EditOp where
  | ins (pos : Int) (text : List Char)
  | del (pos count : Int)
deriving Repr, DecidableEq

/-- Apply an edit operation to the gap buffer. -/
def Buffer.applyOp (b : Buffer) : EditOp → Buffer
  | .ins p t => b.Insert p t
  | .del p c => (b.Delete p c).1

/-- Apply an edit operation to the reference model. -/
def refApplyOp (s : List Char) : EditOp → List Char
  | .ins p t => refInsert s p t
  | .del p c => (refDelete s p c).1

/-! ## Gap movement and growth preserve the content -/

theorem Buffer.length_content (b : Buffer) (hwf : b.Wf) :
    b.Content.length = b.Length := by
  obtain ⟨h1, h2⟩ := hwf
  simp [Buffer.Content, Buffer.Length, List.length_take]
  omega

theorem Buffer.moveGapTo_spec (b : Buffer) (pos : Int) (hwf : b.Wf) :
    (b.moveGapTo pos).Wf ∧ (b.moveGapTo pos).Content = b.Content ∧
    (b.moveGapTo pos).gapStart = clampPos pos b.Length ∧
    (b.moveGapTo pos).gapSize = b.gapSize ∧
    (b.moveGapTo pos).data.length = b.data.length ∧
    (b.moveGapTo pos).Length = b.Length ∧
    (b.moveGapTo pos).modified = b.modified ∧
    (b.moveGapTo pos).filepath = b.filepath ∧
    (b.moveGapTo pos).lineEnding = b.lineEnding := by
  obtain ⟨h1, h2⟩ := hwf
  have hple : clampPos pos b.Length ≤ b.Length := by
    simp only [clampPos]; omega
  have hLen : b.Length = b.data.length - (b.gapEnd - b.gapStart) := rfl
  unfold Buffer.moveGapTo
  set p := clampPos pos b.Length with hp
  by_cases hlt : p < b.gapStart
  · rw [if_pos hlt]
    set mc := b.gapStart - p with hmc
    have hA : (b.data.take (b.gapEnd - mc)).length = b.gapEnd - mc := by
      simp [List.length_take]; omega
    have hB : ((b.data.drop p).take mc).length = mc := by
      simp [List.length_take, List.length_drop]; omega
    have hcont : (b.data.take (b.gapEnd - mc) ++ (b.data.drop p).take mc
          ++ b.data.drop b.gapEnd).take p
        ++ (b.data.take (b.gapEnd - mc) ++ (b.data.drop p).take mc
          ++ b.data.drop b.gapEnd).drop (b.gapEnd - mc)
        = b.Content := by
      rw [List.append_assoc]
      rw [List.take_append_of_le_length (by omega : p ≤ (b.data.take (b.gapEnd - mc)).length)]
      rw [List.drop_left' hA]
      rw [List.take_take]
      have hmin : min p (b.gapEnd - mc) = p := by omega
      rw [hmin, ← List.append_assoc, ← List.take_add]
      have hpm : p + mc = b.gapStart := by omega
      rw [hpm]; rfl
    refine ⟨?_, hcont, rfl, ?_, ?_, ?_, rfl, rfl, rfl⟩
    · refine ⟨by show p ≤ b.gapEnd - mc; omega, ?_⟩
      show b.gapEnd - mc ≤ (b.data.take (b.gapEnd - mc) ++ (b.data.drop p).take mc
        ++ b.data.drop b.gapEnd).length
      simp only [List.length_append, hA, hB, List.length_drop]; omega
    · show b.gapEnd - mc - p = b.gapEnd - b.gapStart
      omega
    · show (b.data.take (b.gapEnd - mc) ++ (b.data.drop p).take mc
        ++ b.data.drop b.gapEnd).length = b.data.length
      simp only [List.length_append, hA, hB, List.length_drop]; omega
    · show (b.data.take (b.gapEnd - mc) ++ (b.data.drop p).take mc
        ++ b.data.drop b.gapEnd).length - (b.gapEnd - mc - p) = b.Length
      simp only [List.length_append, hA, hB, List.length_drop, hLen]; omega
  · by_cases hgt : p > b.gapStart
    · rw [if_neg hlt, if_pos hgt]
      set mc := p - b.gapStart with hmc
      have hpLen : p ≤ b.data.length - (b.gapEnd - b.gapStart) := hple
      have hgm : b.gapEnd + mc ≤ b.data.length := by omega
      have hA : (b.data.take b.gapStart).length = b.gapStart := by
        simp [List.length_take]; omega
      have hB : ((b.data.drop b.gapEnd).take mc).length = mc := by
        simp [List.length_take, List.length_drop]; omega
      have hAB : (b.data.take b.gapStart ++ (b.data.drop b.gapEnd).take mc).length
          = b.gapStart + mc := by
        simp only [List.length_append, hA, hB]
      have hcont : (b.data.take b.gapStart ++ (b.data.drop b.gapEnd).take mc
            ++ b.data.drop (b.gapStart + mc)).take p
          ++ (b.data.take b.gapStart ++ (b.data.drop b.gapEnd).take mc
            ++ b.data.drop (b.gapStart + mc)).drop (b.gapEnd + mc)
          = b.Content := by
        have hdropAB : (b.data.take b.gapStart ++ (b.data.drop b.gapEnd).take mc).drop
            (b.gapEnd + mc) = [] :=
          List.drop_of_length_le (by rw [hAB]; omega)
        rw [List.take_left' (by rw [hAB]; omega)]
        rw [List.drop_append_eq_append_drop, hdropAB, List.nil_append, hAB, List.drop_drop]
        have harith : b.gapStart + mc + (b.gapEnd + mc - (b.gapStart + mc)) = b.gapEnd + mc := by
          omega
        rw [harith]
        have hdd : b.data.drop (b.gapEnd + mc) = (b.data.drop b.gapEnd).drop mc := by
          rw [List.drop_drop]
        rw [hdd, List.append_assoc, List.take_append_drop]; rfl
      refine ⟨?_, hcont, rfl, ?_, ?_, ?_, rfl, rfl, rfl⟩
      · refine ⟨by show p ≤ b.gapEnd + mc; omega, ?_⟩
        show b.gapEnd + mc ≤ (b.data.take b.gapStart ++ (b.data.drop b.gapEnd).take mc
          ++ b.data.drop (b.gapStart + mc)).length
        simp only [List.length_append, hA, hB, List.length_drop]; omega
      · show b.gapEnd + mc - p = b.gapEnd - b.gapStart
        omega
      · show (b.data.take b.gapStart ++ (b.data.drop b.gapEnd).take mc
          ++ b.data.drop (b.gapStart + mc)).length = b.data.length
        simp only [List.length_append, hA, hB, List.length_drop]; omega
      · show (b.data.take b.gapStart ++ (b.data.drop b.gapEnd).take mc
          ++ b.data.drop (b.gapStart + mc)).length - (b.gapEnd + mc - p) = b.Length
        simp only [List.length_append, hA, hB, List.length_drop, hLen]; omega
    · rw [if_neg hlt, if_neg hgt]
      exact ⟨⟨h1, h2⟩, rfl, by omega, rfl, rfl, rfl, rfl, rfl, rfl⟩

theorem Buffer.expandGap_spec (b : Buffer) (minSize : Nat) (hwf : b.Wf) :
    (b.expandGap minSize).Wf ∧ (b.expandGap minSize).Content = b.Content ∧
    (b.expandGap minSize).gapStart = b.gapStart ∧
    minSize ≤ (b.expandGap minSize).gapSize ∧
    (b.expandGap minSize).Length = b.Length ∧
    (b.expandGap minSize).modified = b.modified := by
  obtain ⟨h1, h2⟩ := hwf
  unfold Buffer.expandGap
  by_cases hge : b.gapSize ≥ minSize
  · rw [if_pos hge]
    exact ⟨⟨h1, h2⟩, rfl, rfl, hge, rfl, rfl⟩
  · rw [if_neg hge]
    set ng := max (max (b.gapSize * 2) minSize) initialGapSize with hng
    have hngge : minSize ≤ ng := by omega
    have hA : (b.data.take b.gapStart).length = b.gapStart := by
      simp [List.length_take]; omega
    have hAg : (b.data.take b.gapStart ++ List.replicate ng nulChar).length = b.gapStart + ng := by
      simp only [List.length_append, hA, List.length_replicate]
    have hcont : (b.data.take b.gapStart ++ List.replicate ng nulChar
          ++ b.data.drop b.gapEnd).take b.gapStart
        ++ (b.data.take b.gapStart ++ List.replicate ng nulChar
          ++ b.data.drop b.gapEnd).drop (b.gapStart + ng)
        = b.Content := by
      rw [List.take_append_of_le_length (by rw [hAg]; omega)]
      rw [List.take_append_of_le_length (by rw [hA])]
      rw [List.take_take, min_self]
      rw [List.drop_left' hAg]
      rfl
    have hgs : b.gapSize = b.gapEnd - b.gapStart := rfl
    refine ⟨?_, hcont, rfl, ?_, ?_, rfl⟩
    · refine ⟨by show b.gapStart ≤ b.gapStart + ng; omega, ?_⟩
      show b.gapStart + ng ≤ (b.data.take b.gapStart ++ List.replicate ng nulChar
        ++ b.data.drop b.gapEnd).length
      simp only [List.length_append, hA, List.length_replicate, List.length_drop]; omega
    · show minSize ≤ b.gapStart + ng - b.gapStart
      omega
    · show (b.data.take b.gapStart ++ List.replicate ng nulChar
        ++ b.data.drop b.gapEnd).length - (b.gapStart + ng - b.gapStart) = b.Length
      have hLen : b.Length = b.data.length - (b.gapEnd - b.gapStart) := rfl
      simp only [List.length_append, hA, List.length_replicate, List.length_drop, hLen]; omega

theorem Buffer.rebuild_content (b : Buffer) : b.rebuildLineIndex.Content = b.Content := rfl

theorem Buffer.insertAtGap_spec (b : Buffer) (text : List Char) (hwf : b.Wf)
    (hgap : b.gapStart + text.length ≤ b.gapEnd) :
    (b.insertAtGap text).Wf ∧
    (b.insertAtGap text).Content
      = b.Content.take b.gapStart ++ text ++ b.Content.drop b.gapStart := by
  obtain ⟨h1, h2⟩ := hwf
  have hA : (b.data.take b.gapStart).length = b.gapStart := by
    simp [List.length_take]; omega
  have hAt : (b.data.take b.gapStart ++ text).length = b.gapStart + text.length := by
    simp only [List.length_append, hA]
  constructor
  · refine ⟨by show b.gapStart + text.length ≤ b.gapEnd; omega, ?_⟩
    show b.gapEnd ≤ (b.data.take b.gapStart ++ text ++ b.data.drop (b.gapStart + text.length)).length
    simp only [List.length_append, hA, List.length_drop]; omega
  · show (b.data.take b.gapStart ++ text ++ b.data.drop (b.gapStart + text.length)).take (b.gapStart + text.length)
        ++ (b.data.take b.gapStart ++ text ++ b.data.drop (b.gapStart + text.length)).drop b.gapEnd
        = b.Content.take b.gapStart ++ text ++ b.Content.drop b.gapStart
    have hdropAt : (b.data.take b.gapStart ++ text).drop b.gapEnd = [] :=
      List.drop_of_length_le (by rw [hAt]; omega)
    rw [List.take_left' hAt]
    rw [List.drop_append_eq_append_drop, hdropAt, List.nil_append, hAt, List.drop_drop]
    have harith : b.gapStart + text.length + (b.gapEnd - (b.gapStart + text.length)) = b.gapEnd := by
      omega
    rw [harith]
    show (b.data.take b.gapStart ++ text) ++ b.data.drop b.gapEnd
        = (b.data.take b.gapStart ++ b.data.drop b.gapEnd).take b.gapStart ++ text
          ++ (b.data.take b.gapStart ++ b.data.drop b.gapEnd).drop b.gapStart
    rw [List.take_left' hA, List.drop_left' hA]

theorem Buffer.insert_spec (b : Buffer) (pos : Int) (text : List Char) (hwf : b.Wf) :
    (b.Insert pos text).Wf ∧ (b.Insert pos text).Content = refInsert b.Content pos text := by
  unfold Buffer.Insert refInsert
  by_cases ht : text.length = 0
  · rw [if_pos ht, if_pos ht]
    exact ⟨hwf, rfl⟩
  · rw [if_neg ht, if_neg ht]
    obtain ⟨hwf1, hc1, hg1, hs1, hd1, hL1, _⟩ := b.moveGapTo_spec pos hwf
    set b1 := b.moveGapTo pos with hb1
    obtain ⟨hwf2, hc2, hg2, hs2, hL2, _⟩ := b1.expandGap_spec text.length hwf1
    set b2 := b1.expandGap text.length with hb2
    have hgap : b2.gapStart + text.length ≤ b2.gapEnd := by
      have hgs : b2.gapSize = b2.gapEnd - b2.gapStart := rfl
      have hw := hwf2.1
      omega
    obtain ⟨hwf3, hc3⟩ := b2.insertAtGap_spec text hwf2 hgap
    have hclamp : clampPos pos b.Content.length = b2.gapStart := by
      rw [b.length_content hwf, hg2, hg1]
    refine ⟨hwf3, ?_⟩
    rw [Buffer.rebuild_content, hc3, hc2, hc1, hclamp]

theorem Buffer.delete_spec (b : Buffer) (pos count : Int) (hwf : b.Wf) :
    (b.Delete pos count).1.Wf ∧
    (b.Delete pos count).1.Content = (refDelete b.Content pos count).1 ∧
    (b.Delete pos count).2 = (refDelete b.Content pos count).2 := by
  unfold Buffer.Delete refDelete
  rw [b.length_content hwf]
  by_cases hguard : count ≤ 0 ∨ pos < 0 ∨ pos ≥ (b.Length : Int)
  · rw [if_pos hguard, if_pos hguard]
    exact ⟨hwf, rfl, rfl⟩
  · rw [if_neg hguard, if_neg hguard]
    push_neg at hguard
    obtain ⟨hcpos, hpos0, hposL⟩ := hguard
    set c : Nat := delClamp b.Length pos count with hc
    obtain ⟨hwf1, hc1, hg1, hs1, hd1, hL1, _⟩ := b.moveGapTo_spec pos hwf
    set b1 := b.moveGapTo pos with hb1
    obtain ⟨hw1, hw2⟩ := hwf1
    have hp : clampPos pos b.Length = pos.toNat := by
      simp only [clampPos]; omega
    have hcle : c ≤ b.Length - pos.toNat := by
      rw [hc]; simp only [delClamp]; split <;> omega
    have hLb : b.Length = b1.data.length - (b1.gapEnd - b1.gapStart) := by
      rw [← hL1]; rfl
    have hg1' : b1.gapStart = pos.toNat := by rw [hg1, hp]
    have hgc : b1.gapEnd + c ≤ b1.data.length := by omega
    have hcontent1 : b.Content = b1.data.take b1.gapStart ++ b1.data.drop b1.gapEnd := by
      rw [← hc1]; rfl
    have hA : (b1.data.take b1.gapStart).length = b1.gapStart := by
      simp [List.length_take]; omega
    refine ⟨?_, ?_, ?_⟩
    · exact ⟨by show b1.gapStart ≤ b1.gapEnd + c; omega,
        by show b1.gapEnd + c ≤ b1.data.length; omega⟩
    · show b1.data.take b1.gapStart ++ b1.data.drop (b1.gapEnd + c)
          = b.Content.take pos.toNat ++ b.Content.drop (pos.toNat + c)
      rw [hcontent1]
      have hdropA : (b1.data.take b1.gapStart).drop (pos.toNat + c) = [] :=
        List.drop_of_length_le (by rw [hA]; omega)
      rw [List.take_append_of_le_length (by omega : pos.toNat ≤ (b1.data.take b1.gapStart).length)]
      rw [List.take_take]
      have hmin : min pos.toNat b1.gapStart = pos.toNat := by omega
      rw [hmin]
      rw [List.drop_append_eq_append_drop, hdropA, List.nil_append, hA]
      have hd : pos.toNat + c - b1.gapStart = c := by omega
      have hdrops : (b1.data.drop b1.gapEnd).drop c = b1.data.drop (b1.gapEnd + c) := by
        rw [List.drop_drop]
      rw [hd, hdrops, hg1']
    · show (b1.data.drop b1.gapEnd).take c = (b.Content.drop pos.toNat).take c
      rw [hcontent1]
      have hdropA : (b1.data.take b1.gapStart).drop pos.toNat = [] :=
        List.drop_of_length_le (by rw [hA]; omega)
      rw [List.drop_append_eq_append_drop, hdropA, List.nil_append, hA]
      have hz : pos.toNat - b1.gapStart = 0 := by omega
      rw [hz, List.drop_zero]

theorem NewBuffer_wf : NewBuffer.Wf := by
  refine ⟨Nat.zero_le _, ?_⟩
  show initialGapSize ≤ (List.replicate initialGapSize nulChar).length
  simp [List.length_replicate]

theorem NewBuffer_content : NewBuffer.Content = [] := by
  show (List.replicate initialGapSize nulChar).take 0
      ++ (List.replicate initialGapSize nulChar).drop initialGapSize = []
  simp

/-- Invariant carried through an edit sequence. -/
theorem Buffer.applyOp_spec (b : Buffer) (op : EditOp) (hwf : b.Wf) :
    (b.applyOp op).Wf ∧ (b.applyOp op).Content = refApplyOp b.Content op := by
  cases op with
  | ins p t => exact b.insert_spec p t hwf
  | del p c =>
    obtain ⟨h1, h2, _⟩ := b.delete_spec p c hwf
    exact ⟨h1, h2⟩

/-! ## The line-start cache -/

/-- Line starts of a plain character sequence: 0, then `i+1` for every
newline position `i`.  This is what `rebuildLineIndex` computes, expressed
over the materialised content. -/
def lineStarts (s : List Char) : List Nat :=
  0 :: (List.range s.length).filterMap
    (fun i => if s.getD i nulChar = '\n' then some (i + 1) else none)

theorem Buffer.runeAt_eq_content (b : Buffer) (hwf : b.Wf) (i : Nat) (hi : i < b.Length) :
    b.RuneAt (i : Int) = b.Content.getD i nulChar := by
  obtain ⟨h1, h2⟩ := hwf
  have hlen : b.Content.length = b.Length := b.length_content ⟨h1, h2⟩
  have hL : b.Length = b.data.length - (b.gapEnd - b.gapStart) := rfl
  have htl : (b.data.take b.gapStart).length = b.gapStart := by
    simp [List.length_take]; omega
  unfold Buffer.RuneAt
  rw [if_neg (by push_neg; omega)]
  simp only [Int.toNat_natCast]
  unfold Buffer.Content
  by_cases hcase : i < b.gapStart
  · rw [if_pos hcase]
    rw [List.getD_eq_getElem?_getD, List.getD_eq_getElem?_getD]
    rw [List.getElem?_append, if_pos (by rw [htl]; omega), List.getElem?_take, if_pos hcase]
  · rw [if_neg hcase]
    rw [List.getD_eq_getElem?_getD, List.getD_eq_getElem?_getD]
    rw [List.getElem?_append, if_neg (by rw [htl]; omega), htl, List.getElem?_drop]
    congr 2
    omega

theorem Buffer.mkLines_eq (b : Buffer) (hwf : b.Wf) : b.mkLines = lineStarts b.Content := by
  have hlen := b.length_content hwf
  unfold Buffer.mkLines lineStarts
  rw [hlen]
  congr 1
  apply List.filterMap_congr
  intro i hi
  rw [List.mem_range] at hi
  unfold Buffer.nlMark
  rw [b.runeAt_eq_content hwf i (hlen ▸ hi)]

/-- Full well-formedness: structural gap invariant plus a correct
line-start cache. -/
def Buffer.WfL (b : Buffer) : Prop := b.Wf ∧ b.lines = lineStarts b.Content

instance (b : Buffer) : Decidable b.WfL := by unfold Buffer.WfL; infer_instance

theorem NewBuffer_wfl : NewBuffer.WfL := by
  refine ⟨NewBuffer_wf, ?_⟩
  rw [NewBuffer_content]
  rfl

theorem Buffer.insert_wfl (b : Buffer) (pos : Int) (text : List Char) (h : b.WfL) :
    (b.Insert pos text).WfL := by
  obtain ⟨hwf, hlines⟩ := h
  have hspec := b.insert_spec pos text hwf
  refine ⟨hspec.1, ?_⟩
  unfold Buffer.Insert at hspec ⊢
  by_cases ht : text.length = 0
  · rw [if_pos ht]; exact hlines
  · rw [if_neg ht] at hspec ⊢
    show (((b.moveGapTo pos).expandGap text.length).insertAtGap text).mkLines = _
    exact Buffer.mkLines_eq _ hspec.1

theorem Buffer.delete_wfl (b : Buffer) (pos count : Int) (h : b.WfL) :
    (b.Delete pos count).1.WfL := by
  obtain ⟨hwf, hlines⟩ := h
  have hspec := b.delete_spec pos count hwf
  refine ⟨hspec.1, ?_⟩
  unfold Buffer.Delete at hspec ⊢
  by_cases hguard : count ≤ 0 ∨ pos < 0 ∨ pos ≥ (b.Length : Int)
  · rw [if_pos hguard]; exact hlines
  · rw [if_neg hguard] at hspec ⊢
    show (((b.moveGapTo pos).dropAtGap (delClamp b.Length pos count))).mkLines = _
    exact Buffer.mkLines_eq _ hspec.1

/-! ## Lines, positions and offsets -/

/-- `Buffer.LineCount`. -/
def Buffer.LineCount (b : Buffer) : Nat := b.lines.length

/-- Lower clamp of `Buffer.Substring` (`if start < 0 then 0`). -/
def subLo (start : Int) : Int := if start < 0 then 0 else start

/-- Upper clamp of `Buffer.Substring` (`if end > Length then Length`). -/
def subHi (len : Nat) (fin : Int) : Int := if fin > (len : Int) then (len : Int) else fin

/-- `Buffer.Substring`: clamp the bounds and collect the runes in range. -/
def Buffer.Substring (b : Buffer) (start fin : Int) : List Char :=
  if subLo start ≥ subHi b.Length fin then []
  else (List.range (subHi b.Length fin - subLo start).toNat).map
    (fun (i : Nat) => b.RuneAt (subLo start + (i : Int)))

/-- The end bound of `Buffer.Line`: the rune before the next line start, or
the buffer end for the final line. -/
def Buffer.lineEndBound (b : Buffer) (l : Nat) : Int :=
  if l + 1 < b.lines.length then (b.lines.getD (l + 1) 0 : Int) - 1 else (b.Length : Int)

/-- `Buffer.Line`: the text of a line (newline excluded); empty when out of
range. -/
def Buffer.Line (b : Buffer) (lineNum : Int) : List Char :=
  if lineNum < 0 ∨ lineNum ≥ (b.lines.length : Int) then []
  else if b.lineEndBound lineNum.toNat < (b.lines.getD lineNum.toNat 0 : Int) then []
  else b.Substring (b.lines.getD lineNum.toNat 0 : Int) (b.lineEndBound lineNum.toNat)

/-- `Buffer.LineLength`: rune count of a line. -/
def Buffer.LineLength (b : Buffer) (lineNum : Int) : Nat := (b.Line lineNum).length

/-- The offset of `PositionToOffset` before the final clamps: line start
plus column, capped at the line end for non-final lines. -/
def Buffer.p2oRaw (b : Buffer) (l : Nat) (col : Int) : Int :=
  if l + 1 < b.lines.length then
    if (b.lines.getD l 0 : Int) + col > (b.lines.getD (l + 1) 0 : Int) - 1
    then (b.lines.getD (l + 1) 0 : Int) - 1
    else (b.lines.getD l 0 : Int) + col
  else (b.lines.getD l 0 : Int) + col

/-- `Buffer.PositionToOffset`: out-of-range lines give 0; otherwise the
line-start-plus-column offset capped at the line end and clamped into
`[0, Length]`. -/
def Buffer.PositionToOffset (b : Buffer) (line col : Int) : Int :=
  if line < 0 ∨ line ≥ (b.lines.length : Int) then 0
  else if (if b.p2oRaw line.toNat col > (b.Length : Int)
           then (b.Length : Int) else b.p2oRaw line.toNat col) < 0 then 0
  else if b.p2oRaw line.toNat col > (b.Length : Int)
       then (b.Length : Int) else b.p2oRaw line.toNat col

/-- The binary search loop of `OffsetToPosition`: greatest index in
`[lo, hi]` whose line start is `≤ offset` (given sortedness and
`lines[lo] ≤ offset`). -/
def bsearchGo (lines : List Nat) (offset : Int) (lo hi : Nat) : Nat :=
  if h : lo < hi then
    if (lines.getD ((lo + hi + 1) / 2) 0 : Int) ≤ offset then
      bsearchGo lines offset ((lo + hi + 1) / 2) hi
    else bsearchGo lines offset lo ((lo + hi + 1) / 2 - 1)
  else lo
termination_by hi - lo
decreasing_by all_goals omega

/-- `Buffer.OffsetToPosition`: negative offsets give `(0,0)`, offsets past
the end give the end of the last line, otherwise binary search over the
line-start cache. -/
def Buffer.OffsetToPosition (b : Buffer) (offset : Int) : Int × Int :=
  if offset < 0 then (0, 0)
  else if offset ≥ (b.Length : Int) then
    if b.lines.length = 0 then (0, 0)
    else ((b.lines.length - 1 : Nat), (b.LineLength ((b.lines.length - 1 : Nat) : Int) : Int))
  else
    ((bsearchGo b.lines offset 0 (b.lines.length - 1) : Nat),
     offset - (b.lines.getD (bsearchGo b.lines offset 0 (b.lines.length - 1)) 0 : Int))

/-! ## Ordering facts about the line-start list -/

theorem lineStarts_ne_nil (s : List Char) : lineStarts s ≠ [] := by
  unfold lineStarts; exact List.cons_ne_nil _ _

theorem lineStarts_length_pos (s : List Char) : 0 < (lineStarts s).length := by
  unfold lineStarts; simp

theorem lineStarts_getD_zero (s : List Char) : (lineStarts s).getD 0 0 = 0 := rfl

theorem lineStarts_tail_mem (s : List Char) (x : Nat)
    (hx : x ∈ (List.range s.length).filterMap
      (fun i => if s.getD i nulChar = '\n' then some (i + 1) else none)) :
    ∃ i, i < s.length ∧ s.getD i nulChar = '\n' ∧ x = i + 1 := by
  rw [List.mem_filterMap] at hx
  obtain ⟨a, ha, hfa⟩ := hx
  rw [List.mem_range] at ha
  by_cases hnl : s.getD a nulChar = '\n'
  · rw [if_pos hnl] at hfa
    exact ⟨a, ha, hnl, (Option.some_inj.mp hfa).symm⟩
  · rw [if_neg hnl] at hfa
    exact absurd hfa (Option.noConfusion)

theorem lineStarts_sorted (s : List Char) : (lineStarts s).Pairwise (· < ·) := by
  unfold lineStarts
  rw [List.pairwise_cons]
  constructor
  · intro x hx
    obtain ⟨i, _, _, hxi⟩ := lineStarts_tail_mem s x hx
    omega
  · refine List.Pairwise.filterMap _ ?_ (List.pairwise_lt_range s.length)
    intro a b hab c hc d hd
    have hca : a + 1 = c := by
      by_cases h : s.getD a nulChar = '\n'
      · rw [if_pos h, Option.mem_def] at hc; exact Option.some_inj.mp hc
      · rw [if_neg h] at hc; exact absurd hc (Option.not_mem_none c)
    have hdb : b + 1 = d := by
      by_cases h : s.getD b nulChar = '\n'
      · rw [if_pos h, Option.mem_def] at hd; exact Option.some_inj.mp hd
      · rw [if_neg h] at hd; exact absurd hd (Option.not_mem_none d)
    omega

theorem lineStarts_getD_lt (s : List Char) (i j : Nat) (hij : i < j)
    (hj : j < (lineStarts s).length) :
    (lineStarts s).getD i 0 < (lineStarts s).getD j 0 := by
  have hs := lineStarts_sorted s
  rw [List.pairwise_iff_get] at hs
  have hi : i < (lineStarts s).length := by omega
  rw [List.getD_eq_getElem _ _ hi, List.getD_eq_getElem _ _ hj]
  exact hs ⟨i, hi⟩ ⟨j, hj⟩ hij

theorem lineStarts_getD_le (s : List Char) (i j : Nat) (hij : i ≤ j)
    (hj : j < (lineStarts s).length) :
    (lineStarts s).getD i 0 ≤ (lineStarts s).getD j 0 := by
  rcases Nat.eq_or_lt_of_le hij with h | h
  · rw [h]
  · exact Nat.le_of_lt (lineStarts_getD_lt s i j h hj)

theorem lineStarts_getD_le_length (s : List Char) (j : Nat)
    (hj : j < (lineStarts s).length) :
    (lineStarts s).getD j 0 ≤ s.length := by
  rcases Nat.eq_zero_or_pos j with rfl | hpos
  · rw [lineStarts_getD_zero]; omega
  · have hmem : (lineStarts s).getD j 0 ∈ lineStarts s := by
      rw [List.getD_eq_getElem _ _ hj]
      exact List.getElem_mem _
    rcases List.mem_cons.mp hmem with h0 | htail
    · omega
    · obtain ⟨i, hi, _, hx⟩ := lineStarts_tail_mem s _ htail
      omega

/-! ## Line lengths and the binary search -/

theorem Buffer.substring_length (b : Buffer) (lo hi : Int) (h0 : 0 ≤ lo)
    (h2 : hi ≤ (b.Length : Int)) :
    (b.Substring lo hi).length = (hi - lo).toNat := by
  have hlo : subLo lo = lo := by unfold subLo; rw [if_neg (by omega)]
  have hhi : subHi b.Length hi = hi := by unfold subHi; rw [if_neg (by omega)]
  unfold Buffer.Substring
  rw [hlo, hhi]
  by_cases hlt : lo ≥ hi
  · rw [if_pos hlt]
    simp only [List.length_nil]
    omega
  · rw [if_neg hlt]
    rw [List.length_map, List.length_range]

theorem Buffer.lineLength_eq (b : Buffer) (h : b.WfL) (j : Nat) (hj : j < b.lines.length) :
    b.LineLength (j : Int)
      = (if j + 1 < b.lines.length then b.lines.getD (j + 1) 0 - 1 else b.Length)
        - b.lines.getD j 0 := by
  obtain ⟨hwf, hL⟩ := h
  have hlen : b.Content.length = b.Length := b.length_content hwf
  have hjle : b.lines.getD j 0 ≤ b.Length := by
    rw [hL]; rw [hL] at hj
    have := lineStarts_getD_le_length b.Content j hj
    omega
  unfold Buffer.LineLength Buffer.Line
  rw [if_neg (by push_neg; constructor <;> omega)]
  simp only [Int.toNat_natCast]
  unfold Buffer.lineEndBound
  by_cases hfin : j + 1 < b.lines.length
  · rw [if_pos hfin, if_pos hfin]
    have hj1le : b.lines.getD (j + 1) 0 ≤ b.Length := by
      rw [hL]; rw [hL] at hfin
      have := lineStarts_getD_le_length b.Content (j + 1) hfin
      omega
    have hlt : b.lines.getD j 0 < b.lines.getD (j + 1) 0 := by
      rw [hL]; rw [hL] at hfin
      exact lineStarts_getD_lt b.Content j (j + 1) (by omega) hfin
    rw [if_neg (by omega)]
    rw [b.substring_length _ _ (by omega) (by omega)]
    omega
  · rw [if_neg hfin, if_neg hfin]
    rw [if_neg (by omega)]
    rw [b.substring_length _ _ (by omega) (by omega)]
    omega

theorem bsearchGo_spec (L : List Nat) (off : Int)
    (hsort : ∀ i j, i < j → j < L.length → L.getD i 0 < L.getD j 0) :
    ∀ d lo hi, hi - lo ≤ d → hi < L.length → lo ≤ hi → (L.getD lo 0 : Int) ≤ off →
    lo ≤ bsearchGo L off lo hi ∧ bsearchGo L off lo hi ≤ hi ∧
    (L.getD (bsearchGo L off lo hi) 0 : Int) ≤ off ∧
    (∀ k, bsearchGo L off lo hi < k → k ≤ hi → off < (L.getD k 0 : Int)) := by
  intro d
  induction d with
  | zero =>
    intro lo hi hd hhi hlohi hbase
    have heq : hi = lo := by omega
    rw [bsearchGo, dif_neg (by omega)]
    exact ⟨Nat.le_refl _, by omega, hbase, by intro k hk1 hk2; omega⟩
  | succ d ih =>
    intro lo hi hd hhi hlohi hbase
    by_cases hlt : lo < hi
    · rw [bsearchGo, dif_pos hlt]
      by_cases hmid : (L.getD ((lo + hi + 1) / 2) 0 : Int) ≤ off
      · rw [if_pos hmid]
        have hrec := ih ((lo + hi + 1) / 2) hi (by omega) hhi (by omega) hmid
        refine ⟨by omega, hrec.2.1, hrec.2.2.1, hrec.2.2.2⟩
      · rw [if_neg hmid]
        have hrec := ih lo ((lo + hi + 1) / 2 - 1) (by omega) (by omega) (by omega) hbase
        refine ⟨hrec.1, by omega, hrec.2.2.1, ?_⟩
        intro k hk1 hk2
        by_cases hkm : k ≤ (lo + hi + 1) / 2 - 1
        · exact hrec.2.2.2 k hk1 hkm
        · push_neg at hmid
          have hmk : ((lo + hi + 1) / 2) ≤ k := by omega
          have : L.getD ((lo + hi + 1) / 2) 0 ≤ L.getD k 0 := by
            rcases Nat.eq_or_lt_of_le hmk with he | hlt2
            · rw [he]
            · exact Nat.le_of_lt (hsort _ _ hlt2 (by omega))
          have : (L.getD ((lo + hi + 1) / 2) 0 : Int) ≤ (L.getD k 0 : Int) := by
            exact_mod_cast this
          omega
    · rw [bsearchGo, dif_neg hlt]
      exact ⟨Nat.le_refl _, by omega, hbase, by intro k hk1 hk2; omega⟩

/-- **C1** (round-trip refinement): for every sequence of insert/delete
operations applied to an initially empty text store, `Content()` equals the
result of applying the same edits (with the same clamping of offsets and
counts) to the naive dynamic-array-of-characters reference model. -/
theorem C1_roundtrip (ops : List EditOp) :
    (ops.foldl Buffer.applyOp NewBuffer).Content = ops.foldl refApplyOp [] := by
  suffices h : ∀ (b : Buffer) (s : List Char), b.Wf → b.Content = s →
      (ops.foldl Buffer.applyOp b).Wf ∧ (ops.foldl Buffer.applyOp b).Content = ops.foldl refApplyOp s by
    exact (h NewBuffer [] NewBuffer_wf NewBuffer_content).2
  induction ops with
  | nil => intro b s hwf hc; exact ⟨hwf, hc⟩
  | cons op rest ih =>
    intro b s hwf hc
    obtain ⟨hwf', hc'⟩ := b.applyOp_spec op hwf
    exact ih (b.applyOp op) (refApplyOp s op) hwf' (by rw [hc', hc])

/-! ## Claims C4 and C5: position/offset conversion -/

theorem bracket_unique (L : List Nat) (off : Int)
    (hsort : ∀ i j, i < j → j < L.length → L.getD i 0 < L.getD j 0)
    (r j : Nat) (hr : r < L.length) (hj : j < L.length)
    (h1 : (L.getD r 0 : Int) ≤ off) (h2 : ∀ k, r < k → k < L.length → off < (L.getD k 0 : Int))
    (h3 : (L.getD j 0 : Int) ≤ off) (h4 : ∀ k, j < k → k < L.length → off < (L.getD k 0 : Int)) :
    r = j := by
  rcases lt_trichotomy r j with hlt | he | hgt
  · exact absurd h3 (not_le.mpr (h2 j hlt hj))
  · exact he
  · exact absurd h1 (not_le.mpr (h4 r hgt hr))

/-- Facts about `b.lines` transported from `lineStarts` under `WfL`. -/
theorem Buffer.lines_facts (b : Buffer) (h : b.WfL) :
    0 < b.lines.length ∧ b.lines.getD 0 0 = 0 ∧
    (∀ i j, i < j → j < b.lines.length → b.lines.getD i 0 < b.lines.getD j 0) ∧
    (∀ j, j < b.lines.length → b.lines.getD j 0 ≤ b.Length) := by
  obtain ⟨hwf, hL⟩ := h
  have hlen : b.Content.length = b.Length := b.length_content hwf
  refine ⟨?_, ?_, ?_, ?_⟩
  · rw [hL]; exact lineStarts_length_pos _
  · rw [hL]; rfl
  · rw [hL]; intro i j hij hj; exact lineStarts_getD_lt _ i j hij hj
  · rw [hL]; intro j hj
    have := lineStarts_getD_le_length b.Content j hj
    omega

/-- The end-of-buffer branch of `OffsetToPosition`. -/
theorem Buffer.o2p_end (b : Buffer) (h : b.WfL) (o : Int) (ho : 0 ≤ o)
    (hend : (b.Length : Int) ≤ o) :
    b.OffsetToPosition o
      = (((b.lines.length - 1 : Nat) : Int),
         ((b.LineLength ((b.lines.length - 1 : Nat) : Int) : Nat) : Int)) := by
  obtain ⟨hpos, -, -, -⟩ := b.lines_facts h
  unfold Buffer.OffsetToPosition
  rw [if_neg (by omega), if_pos (by omega), if_neg (by omega)]

/-- The binary-search branch of `OffsetToPosition`. -/
theorem Buffer.o2p_mid (b : Buffer) (h : b.WfL) (o : Int) (ho : 0 ≤ o)
    (hlt : o < (b.Length : Int)) :
    b.OffsetToPosition o
      = ((bsearchGo b.lines o 0 (b.lines.length - 1) : Int),
         o - (b.lines.getD (bsearchGo b.lines o 0 (b.lines.length - 1)) 0 : Int)) := by
  unfold Buffer.OffsetToPosition
  rw [if_neg (by omega), if_neg (by omega)]

/-- **C5** (offset/position inverse): for every well-formed buffer,
`PositionToOffset` applied to `OffsetToPosition o` returns `o` for every
valid offset `0 ≤ o ≤ length`, and `OffsetToPosition` applied to
`PositionToOffset (line, column)` returns `(line, column)` for every
in-bounds line and column. -/
theorem C5_offset_position_inverse (b : Buffer) (h : b.WfL) :
    (∀ o : Int, 0 ≤ o → o ≤ (b.Length : Int) →
      b.PositionToOffset (b.OffsetToPosition o).1 (b.OffsetToPosition o).2 = o) ∧
    (∀ line col : Nat, line < b.lines.length → col ≤ b.LineLength (line : Int) →
      b.OffsetToPosition (b.PositionToOffset (line : Int) (col : Int))
        = ((line : Int), (col : Int))) := by
  obtain ⟨hpos, h0, hsort, hle⟩ := b.lines_facts h
  have hsort' : ∀ i j, i ≤ j → j < b.lines.length → b.lines.getD i 0 ≤ b.lines.getD j 0 := by
    intro i j hij hj
    rcases Nat.eq_or_lt_of_le hij with he | hl
    · rw [he]
    · exact Nat.le_of_lt (hsort i j hl hj)
  constructor
  · -- forward: offset → position → offset
    intro o ho hoLen
    by_cases hend : (b.Length : Int) ≤ o
    · -- o = Length
      rw [b.o2p_end h o ho hend]
      set last := b.lines.length - 1 with hlast
      have hlastlt : last < b.lines.length := by omega
      have hLL := b.lineLength_eq h last hlastlt
      rw [if_neg (by omega)] at hLL
      show b.PositionToOffset (last : Int) _ = o
      unfold Buffer.PositionToOffset
      rw [if_neg (by push_neg; constructor <;> omega)]
      simp only [Int.toNat_natCast]
      unfold Buffer.p2oRaw
      rw [if_neg (by omega)]
      rw [hLL]
      have := hle last hlastlt
      split_ifs <;> omega
    · -- o < Length: binary search
      push_neg at hend
      rw [b.o2p_mid h o ho hend]
      set r := bsearchGo b.lines o 0 (b.lines.length - 1) with hr
      have hspec := bsearchGo_spec b.lines o hsort (b.lines.length - 1) 0
        (b.lines.length - 1) (by omega) (by omega) (by omega)
        (by rw [h0]; exact_mod_cast ho)
      obtain ⟨-, hrle, hrbase, hrup⟩ := hspec
      show b.PositionToOffset (r : Int) (o - (b.lines.getD r 0 : Int)) = o
      unfold Buffer.PositionToOffset
      rw [if_neg (by push_neg; constructor <;> omega)]
      simp only [Int.toNat_natCast]
      unfold Buffer.p2oRaw
      by_cases hrfin : r + 1 < b.lines.length
      · have hup := hrup (r + 1) (by omega) (by omega)
        rw [if_pos hrfin]
        split_ifs <;> omega
      · rw [if_neg hrfin]
        split_ifs <;> omega
  · -- reverse: position → offset → position
    intro line col hline hcol
    have hLL := b.lineLength_eq h line hline
    by_cases hfin : line + 1 < b.lines.length
    · -- non-final line
      rw [if_pos hfin] at hLL
      rw [hLL] at hcol
      have hlt : b.lines.getD line 0 < b.lines.getD (line + 1) 0 :=
        hsort line (line + 1) (by omega) hfin
      have hj1le := hle (line + 1) hfin
      have hp2o : b.PositionToOffset (line : Int) (col : Int)
          = ((b.lines.getD line 0 : Nat) : Int) + (col : Int) := by
        unfold Buffer.PositionToOffset
        rw [if_neg (by push_neg; constructor <;> omega)]
        simp only [Int.toNat_natCast]
        unfold Buffer.p2oRaw
        rw [if_pos hfin]
        split_ifs <;> omega
      rw [hp2o]
      have hofflt : ((b.lines.getD line 0 : Nat) : Int) + (col : Int) < (b.Length : Int) := by
        omega
      rw [b.o2p_mid h _ (by omega) hofflt]
      set off : Int := ((b.lines.getD line 0 : Nat) : Int) + (col : Int) with hoff
      set r := bsearchGo b.lines off 0 (b.lines.length - 1) with hr
      have hspec := bsearchGo_spec b.lines off hsort (b.lines.length - 1) 0
        (b.lines.length - 1) (by omega) (by omega) (by omega)
        (by rw [h0]; push_cast; omega)
      obtain ⟨-, hrle, hrbase, hrup⟩ := hspec
      have hreq : r = line := by
        refine bracket_unique b.lines off hsort r line (by omega) (by omega)
          hrbase ?_ (by omega) ?_
        · intro k hk1 hk2
          exact hrup k hk1 (by omega)
        · intro k hk1 hk2
          have : b.lines.getD (line + 1) 0 ≤ b.lines.getD k 0 := hsort' _ _ (by omega) hk2
          omega
      rw [hreq, Prod.mk.injEq]
      exact ⟨rfl, by omega⟩
    · -- final line
      rw [if_neg hfin] at hLL
      rw [hLL] at hcol
      have hjle := hle line hline
      have hp2o : b.PositionToOffset (line : Int) (col : Int)
          = ((b.lines.getD line 0 : Nat) : Int) + (col : Int) := by
        unfold Buffer.PositionToOffset
        rw [if_neg (by push_neg; constructor <;> omega)]
        simp only [Int.toNat_natCast]
        unfold Buffer.p2oRaw
        rw [if_neg hfin]
        split_ifs <;> omega
      rw [hp2o]
      set off : Int := ((b.lines.getD line 0 : Nat) : Int) + (col : Int) with hoff
      by_cases hoffend : off < (b.Length : Int)
      · rw [b.o2p_mid h _ (by omega) hoffend]
        set r := bsearchGo b.lines off 0 (b.lines.length - 1) with hr
        have hspec := bsearchGo_spec b.lines off hsort (b.lines.length - 1) 0
          (b.lines.length - 1) (by omega) (by omega) (by omega)
          (by rw [h0]; push_cast; omega)
        obtain ⟨-, hrle, hrbase, hrup⟩ := hspec
        have hreq : r = line := by
          refine bracket_unique b.lines off hsort r line (by omega) (by omega)
            hrbase ?_ (by omega) ?_
          · intro k hk1 hk2
            exact hrup k hk1 (by omega)
          · intro k hk1 hk2
            omega
        rw [hreq, Prod.mk.injEq]
        exact ⟨rfl, by omega⟩
      · push_neg at hoffend
        rw [b.o2p_end h off (by omega) hoffend]
        have hlast : line = b.lines.length - 1 := by omega
        have hLL2 := b.lineLength_eq h (b.lines.length - 1) (by omega)
        rw [if_neg (by omega)] at hLL2
        rw [hlast] at hcol hoff ⊢
        rw [Prod.mk.injEq, hLL2]
        have := hle (b.lines.length - 1) (by omega)
        exact ⟨by omega, by omega⟩

/-- Concrete well-formed buffer with content `"ab"` (single line). -/
def bufAB : Buffer :=
  { data := "ab".toList, gapStart := 2, gapEnd := 2, lines := [0],
    modified := true, filepath := [], encoding := "UTF-8".toList, lineEnding := ['\n'] }

/-- Concrete well-formed buffer with content `"ab\ncd"` (two lines). -/
def bufTest : Buffer :=
  { data := "ab\ncd".toList, gapStart := 5, gapEnd := 5, lines := [0, 3],
    modified := true, filepath := [], encoding := "UTF-8".toList, lineEnding := ['\n'] }

/-- **C4** (counterexample): the claim says `PositionToOffset(line, column)`
with `line ≥ lineCount` returns the document-end offset; on the buffer
`"ab"` (document end 2) the code returns 0 for line 1. -/
theorem C4_counterexample :
    bufAB.WfL ∧ (bufAB.Length : Int) = 2 ∧ bufAB.PositionToOffset 1 0 = 0 ∧
    bufAB.PositionToOffset 1 0 ≠ (bufAB.Length : Int) := by decide

/-- **C4 (amended)**: `PositionToOffset`/`OffsetToPosition` are total;
out-of-range line numbers (negative or `≥ lineCount`) yield offset 0 (not
the document end); every result lies in `[0, Length]`; a column past its
line's end clamps to that line's end; a negative offset maps to `(0,0)`
and an offset at or past the end maps to the end of the last line. -/
theorem C4_amended (b : Buffer) (h : b.WfL) :
    (∀ line col : Int, line < 0 ∨ (b.lines.length : Int) ≤ line →
        b.PositionToOffset line col = 0) ∧
    (∀ line col : Int,
        0 ≤ b.PositionToOffset line col ∧ b.PositionToOffset line col ≤ (b.Length : Int)) ∧
    (∀ line : Nat, line < b.lines.length → ∀ col : Int,
        (b.LineLength (line : Int) : Int) < col →
        b.PositionToOffset (line : Int) col
          = (b.lines.getD line 0 : Int) + (b.LineLength (line : Int) : Int)) ∧
    (∀ o : Int, o < 0 → b.OffsetToPosition o = (0, 0)) ∧
    (∀ o : Int, (b.Length : Int) ≤ o →
        b.OffsetToPosition o
          = (((b.lines.length - 1 : Nat) : Int),
             ((b.LineLength ((b.lines.length - 1 : Nat) : Int) : Nat) : Int))) := by
  obtain ⟨hpos, h0, hsort, hle⟩ := b.lines_facts h
  refine ⟨?_, ?_, ?_, ?_, ?_⟩
  · intro line col hout
    unfold Buffer.PositionToOffset
    rw [if_pos (by omega)]
  · intro line col
    unfold Buffer.PositionToOffset
    split_ifs <;> omega
  · intro line hline col hcol
    have hLL := b.lineLength_eq h line hline
    unfold Buffer.PositionToOffset
    rw [if_neg (by push_neg; constructor <;> omega)]
    simp only [Int.toNat_natCast]
    unfold Buffer.p2oRaw
    by_cases hfin : line + 1 < b.lines.length
    · rw [if_pos hfin] at hLL
      rw [if_pos hfin]
      rw [hLL] at hcol ⊢
      have hlt := hsort line (line + 1) (by omega) hfin
      have hj1le := hle (line + 1) hfin
      split_ifs <;> omega
    · rw [if_neg hfin] at hLL
      rw [if_neg hfin]
      rw [hLL] at hcol ⊢
      have hjle := hle line hline
      split_ifs <;> omega
  · intro o ho
    unfold Buffer.OffsetToPosition
    rw [if_pos ho]
  · intro o ho
    exact b.o2p_end h o (by omega) ho

theorem C4_amended_witness :
    bufTest.WfL ∧ bufTest.PositionToOffset 9 4 = 0 :=
  ⟨by decide, (C4_amended bufTest (by decide)).1 9 4 (by decide)⟩

theorem C5_offset_position_inverse_witness :
    bufTest.PositionToOffset (bufTest.OffsetToPosition 4).1 (bufTest.OffsetToPosition 4).2 = 4 :=
  (C5_offset_position_inverse bufTest (by decide)).1 4 (by decide) (by decide)

/-! ## Edit actions and undo/redo (tabstate.go) -/

/-- `Position` from `cursor.go`. -/
structure Position where
  line : Int
  column : Int
deriving Repr, DecidableEq

/-- `ActionType` from `tabstate.go`. -/
inductive ActionType where
  | insert
  | delete
  | replace
deriving Repr, DecidableEq

/-- `EditAction` from `tabstate.go`: offset, inserted text, removed text,
timestamp (milliseconds) and the cursor position before the action. -/
structure EditAction where
  type : ActionType
  position : Int
  text : List Char
  oldText : List Char
  timestamp : Int
  cursorPos : Position
deriving Repr, DecidableEq

/-- Convert an `OffsetToPosition` pair to a `Position`. -/
def posOfPair (p : Int × Int) : Position := ⟨p.1, p.2⟩

/-- `ApplyUndo` from `tabstate.go`: apply the inverse transformation and
return the recorded pre-action cursor position. -/
def ApplyUndo (a : EditAction) (buf : Buffer) : Buffer × Position :=
  match a.type with
  | .insert => ((buf.Delete a.position (a.text.length : Int)).1, a.cursorPos)
  | .delete => (buf.Insert a.position a.oldText, a.cursorPos)
  | .replace =>
      (((buf.Delete a.position (a.text.length : Int)).1).Insert a.position a.oldText,
       a.cursorPos)

/-- `ApplyRedo` from `tabstate.go`: apply the forward transformation and
return the cursor position after it. -/
def ApplyRedo (a : EditAction) (buf : Buffer) : Buffer × Position :=
  match a.type with
  | .insert =>
      (buf.Insert a.position a.text,
       posOfPair ((buf.Insert a.position a.text).OffsetToPosition
         (a.position + (a.text.length : Int))))
  | .delete =>
      ((buf.Delete a.position (a.oldText.length : Int)).1,
       posOfPair (((buf.Delete a.position (a.oldText.length : Int)).1).OffsetToPosition
         a.position))
  | .replace =>
      (((buf.Delete a.position (a.oldText.length : Int)).1).Insert a.position a.text,
       posOfPair ((((buf.Delete a.position (a.oldText.length : Int)).1).Insert a.position
           a.text).OffsetToPosition (a.position + (a.text.length : Int))))

/-- The action applies on content `s`: its offset is inside the document
and its recorded old text matches the document there. -/
def ValidOn (a : EditAction) (s : List Char) : Prop :=
  0 ≤ a.position ∧
  match a.type with
  | .insert => a.position ≤ (s.length : Int)
  | .delete => a.position.toNat + a.oldText.length ≤ s.length ∧
      (s.drop a.position.toNat).take a.oldText.length = a.oldText
  | .replace => a.position.toNat + a.oldText.length ≤ s.length ∧
      (s.drop a.position.toNat).take a.oldText.length = a.oldText

instance (a : EditAction) (s : List Char) : Decidable (ValidOn a s) := by
  unfold ValidOn
  cases a.type <;> exact inferInstance

/-- Replace `removed` characters at `p` by `inserted`. -/
def spliceAt (s : List Char) (p : Nat) (removed : Nat) (inserted : List Char) : List Char :=
  s.take p ++ inserted ++ s.drop (p + removed)

/-- Forward content transformation of an action (what `ApplyRedo` does to
the buffer content). -/
def fwdContent (a : EditAction) (s : List Char) : List Char :=
  match a.type with
  | .insert => refInsert s a.position a.text
  | .delete => (refDelete s a.position (a.oldText.length : Int)).1
  | .replace => refInsert (refDelete s a.position (a.oldText.length : Int)).1 a.position a.text

/-- Undo content transformation of an action (what `ApplyUndo` does to the
buffer content). -/
def undoContent (a : EditAction) (s : List Char) : List Char :=
  match a.type with
  | .insert => (refDelete s a.position (a.text.length : Int)).1
  | .delete => refInsert s a.position a.oldText
  | .replace => refInsert (refDelete s a.position (a.text.length : Int)).1 a.position a.oldText

theorem spliceAt_length (s : List Char) (p k : Nat) (t : List Char) (h : p + k ≤ s.length) :
    (spliceAt s p k t).length = s.length - k + t.length := by
  unfold spliceAt
  simp only [List.length_append, List.length_take, List.length_drop]
  omega

theorem refInsert_eq_splice (s : List Char) (pos : Int) (t : List Char)
    (h0 : 0 ≤ pos) (h1 : pos ≤ (s.length : Int)) :
    refInsert s pos t = spliceAt s pos.toNat 0 t := by
  unfold refInsert spliceAt
  by_cases ht : t.length = 0
  · rw [if_pos ht]
    rw [List.length_eq_zero.mp ht]
    rw [Nat.add_zero]
    simp
  · rw [if_neg ht]
    have hc : clampPos pos s.length = pos.toNat := by unfold clampPos; omega
    rw [hc, Nat.add_zero]

theorem refDelete_eq_splice (s : List Char) (pos : Int) (old : List Char)
    (h0 : 0 ≤ pos) (h1 : pos.toNat + old.length ≤ s.length)
    (hm : (s.drop pos.toNat).take old.length = old) :
    (refDelete s pos (old.length : Int)).1 = spliceAt s pos.toNat old.length [] ∧
    (refDelete s pos (old.length : Int)).2 = old := by
  unfold refDelete spliceAt
  by_cases hemp : old.length = 0
  · rw [if_pos (by left; omega)]
    rw [List.length_eq_zero.mp hemp] at hm ⊢
    constructor
    · simp
    · rfl
  · rw [if_neg (by push_neg; exact ⟨by omega, by omega, by omega⟩)]
    have hdc : delClamp s.length pos (old.length : Int) = old.length := by
      unfold delClamp
      rw [if_neg (by omega)]
      omega
    rw [hdc]
    exact ⟨by simp, hm⟩

theorem spliceAt_inverse (s : List Char) (p : Nat) (old new' : List Char)
    (hp : p + old.length ≤ s.length) (hm : (s.drop p).take old.length = old) :
    spliceAt (spliceAt s p old.length new') p new'.length old = s ∧
    ((spliceAt s p old.length new').drop p).take new'.length = new' ∧
    p + new'.length ≤ (spliceAt s p old.length new').length := by
  have htp : (s.take p).length = p := by simp [List.length_take]; omega
  have htpn : (s.take p ++ new').length = p + new'.length := by simp [htp]
  have htake : (spliceAt s p old.length new').take p = s.take p := by
    unfold spliceAt
    rw [List.append_assoc]
    rw [List.take_append_of_le_length (by omega)]
    rw [List.take_take]
    congr 1
    omega
  have hdropfull : (spliceAt s p old.length new').drop (p + new'.length)
      = s.drop (p + old.length) := by
    unfold spliceAt
    exact List.drop_left' htpn
  have hdropp : (spliceAt s p old.length new').drop p = new' ++ s.drop (p + old.length) := by
    unfold spliceAt
    rw [List.append_assoc]
    exact List.drop_left' htp
  refine ⟨?_, ?_, ?_⟩
  · show (spliceAt s p old.length new').take p ++ old
        ++ (spliceAt s p old.length new').drop (p + new'.length) = s
    rw [htake, hdropfull]
    have hdd : s.drop (p + old.length) = (s.drop p).drop old.length := by
      rw [List.drop_drop]
    rw [hdd]
    calc s.take p ++ old ++ (s.drop p).drop old.length
        = s.take p ++ (s.drop p).take old.length ++ (s.drop p).drop old.length := by rw [hm]
      _ = s.take p ++ ((s.drop p).take old.length ++ (s.drop p).drop old.length) := by
          rw [List.append_assoc]
      _ = s.take p ++ s.drop p := by rw [List.take_append_drop]
      _ = s := List.take_append_drop p s
  · rw [hdropp]
    exact List.take_left' rfl
  · unfold spliceAt
    simp only [List.length_append, htp, List.length_drop]
    omega

theorem splice_del_ins (s : List Char) (p k : Nat) (t : List Char) (hp : p ≤ s.length) :
    spliceAt (spliceAt s p k []) p 0 t = spliceAt s p k t := by
  have htp : (s.take p).length = p := by simp [List.length_take]; omega
  have hsimp : spliceAt s p k [] = s.take p ++ s.drop (p + k) := by
    unfold spliceAt
    rw [List.append_nil]
  rw [hsimp]
  show (s.take p ++ s.drop (p + k)).take p ++ t
      ++ (s.take p ++ s.drop (p + k)).drop (p + 0) = s.take p ++ t ++ s.drop (p + k)
  rw [Nat.add_zero, List.take_left' htp, List.drop_left' htp]

theorem fwd_undo_content (a : EditAction) (s : List Char) (hv : ValidOn a s) :
    undoContent a (fwdContent a s) = s := by
  obtain ⟨h0, hv2⟩ := hv
  unfold fwdContent undoContent
  cases hty : a.type
  case insert =>
    rw [hty] at hv2
    simp only []
    rw [refInsert_eq_splice s a.position a.text h0 hv2]
    obtain ⟨hinv, hmatch, hle⟩ := spliceAt_inverse s a.position.toNat [] a.text
      (by simp only [List.length_nil]; omega) (by simp)
    obtain ⟨hd1, -⟩ := refDelete_eq_splice (spliceAt s a.position.toNat 0 a.text)
      a.position a.text h0 (by simpa using hle) hmatch
    rw [hd1]
    simpa using hinv
  case delete =>
    rw [hty] at hv2
    obtain ⟨hlen, hmatch⟩ := hv2
    simp only []
    obtain ⟨hd1, -⟩ := refDelete_eq_splice s a.position a.oldText h0 hlen hmatch
    rw [hd1]
    have hslen := spliceAt_length s a.position.toNat a.oldText.length [] hlen
    rw [refInsert_eq_splice _ a.position a.oldText h0 (by rw [hslen]; push_cast; omega)]
    obtain ⟨hinv, -, -⟩ := spliceAt_inverse s a.position.toNat a.oldText [] hlen hmatch
    simpa using hinv
  case replace =>
    rw [hty] at hv2
    obtain ⟨hlen, hmatch⟩ := hv2
    simp only []
    obtain ⟨hd1, -⟩ := refDelete_eq_splice s a.position a.oldText h0 hlen hmatch
    rw [hd1]
    have hslen := spliceAt_length s a.position.toNat a.oldText.length [] hlen
    rw [refInsert_eq_splice _ a.position a.text h0 (by rw [hslen]; push_cast; omega)]
    rw [splice_del_ins s a.position.toNat a.oldText.length a.text (by omega)]
    obtain ⟨hinv, hmatch2, hle2⟩ := spliceAt_inverse s a.position.toNat a.oldText
      a.text hlen hmatch
    obtain ⟨hd1', -⟩ := refDelete_eq_splice
      (spliceAt s a.position.toNat a.oldText.length a.text) a.position a.text h0 hle2 hmatch2
    rw [hd1']
    have hslen2 := spliceAt_length s a.position.toNat a.oldText.length a.text hlen
    have hslen3 := spliceAt_length (spliceAt s a.position.toNat a.oldText.length a.text)
      a.position.toNat a.text.length [] hle2
    rw [refInsert_eq_splice _ a.position a.oldText h0 (by rw [hslen3, hslen2]; push_cast; omega)]
    rw [splice_del_ins _ a.position.toNat a.text.length a.oldText (by rw [hslen2]; omega)]
    exact hinv

theorem ApplyRedo_spec (a : EditAction) (b : Buffer) (hwf : b.Wf) :
    (ApplyRedo a b).1.Wf ∧ (ApplyRedo a b).1.Content = fwdContent a b.Content := by
  unfold ApplyRedo fwdContent
  cases hty : a.type
  case insert => exact b.insert_spec a.position a.text hwf
  case delete =>
    obtain ⟨h1, h2, -⟩ := b.delete_spec a.position (a.oldText.length : Int) hwf
    exact ⟨h1, h2⟩
  case replace =>
    obtain ⟨h1, h2, -⟩ := b.delete_spec a.position (a.oldText.length : Int) hwf
    obtain ⟨h3, h4⟩ := (b.Delete a.position (a.oldText.length : Int)).1.insert_spec
      a.position a.text h1
    exact ⟨h3, by rw [h4, h2]⟩

theorem ApplyUndo_spec (a : EditAction) (b : Buffer) (hwf : b.Wf) :
    (ApplyUndo a b).1.Wf ∧ (ApplyUndo a b).1.Content = undoContent a b.Content := by
  unfold ApplyUndo undoContent
  cases hty : a.type
  case insert =>
    obtain ⟨h1, h2, -⟩ := b.delete_spec a.position (a.text.length : Int) hwf
    exact ⟨h1, h2⟩
  case delete => exact b.insert_spec a.position a.oldText hwf
  case replace =>
    obtain ⟨h1, h2, -⟩ := b.delete_spec a.position (a.text.length : Int) hwf
    obtain ⟨h3, h4⟩ := (b.Delete a.position (a.text.length : Int)).1.insert_spec
      a.position a.oldText h1
    exact ⟨h3, by rw [h4, h2]⟩

/-- **C2** (undo/redo inverse): for every edit action `A` and well-formed
buffer whose content `A` applies on, applying `A` (`ApplyRedo`) and then
`ApplyUndo A` restores the content exactly, and applying `ApplyRedo A`
after that undo restores the content of `apply(A, C)`. -/
theorem C2_undo_redo (a : EditAction) (b : Buffer) (hwf : b.Wf) (hv : ValidOn a b.Content) :
    (ApplyUndo a (ApplyRedo a b).1).1.Content = b.Content ∧
    (ApplyRedo a (ApplyUndo a (ApplyRedo a b).1).1).1.Content = (ApplyRedo a b).1.Content := by
  obtain ⟨hwf1, hc1⟩ := ApplyRedo_spec a b hwf
  obtain ⟨hwf2, hc2⟩ := ApplyUndo_spec a (ApplyRedo a b).1 hwf1
  have hu : (ApplyUndo a (ApplyRedo a b).1).1.Content = b.Content := by
    rw [hc2, hc1]
    exact fwd_undo_content a b.Content hv
  refine ⟨hu, ?_⟩
  obtain ⟨hwf3, hc3⟩ := ApplyRedo_spec a (ApplyUndo a (ApplyRedo a b).1).1 hwf2
  rw [hc3, hu, hc1]

/-- Concrete empty buffer (no spare gap) used by witnesses. -/
def bufEmpty : Buffer :=
  { data := [], gapStart := 0, gapEnd := 0, lines := [0],
    modified := false, filepath := [], encoding := "UTF-8".toList, lineEnding := ['\n'] }

/-- Concrete single-character insert action used by witnesses. -/
def actX : EditAction :=
  { type := .insert, position := 0, text := ['x'], oldText := [],
    timestamp := 0, cursorPos := ⟨0, 0⟩ }

theorem C2_undo_redo_witness :
    bufEmpty.Wf ∧ ValidOn actX bufEmpty.Content ∧
    (ApplyUndo actX (ApplyRedo actX bufEmpty).1).1.Content = bufEmpty.Content :=
  ⟨by decide, by decide, (C2_undo_redo actX bufEmpty (by decide) (by decide)).1⟩

/-! ## History (undo/redo stacks, tabstate.go)

The Go slice uses its end as the stack top; the embedding represents each
stack head-as-top, so Go's `append(stack, a)` is `a :: stack` and dropping
the oldest entry (`stack[1:]`) is `dropLast`. -/

/-- `defaultHistoryMax` from `editor.go`. -/
def defaultHistoryMax : Nat := 1000

/-- `History` from `tabstate.go`.  The `savedDepth` field is modelled from
the spec: `MarkSaved`/`IsAtSavePoint` are called by `TabState` but their
definitions are absent from the sources; the spec says "a savepoint is
identified by stack depth/identity at the moment of save". -/
structure History where
  undoStack : List EditAction
  redoStack : List EditAction
  maxSize : Nat
  groupTimeout : Int
  savedDepth : Option Nat
deriving Repr, DecidableEq

/-- `NewHistory`: empty stacks, 500 ms grouping window; a fresh history is
at its save point (a fresh tab reports unmodified). -/
def NewHistory (maxSize : Nat) : History :=
  { undoStack := [], redoStack := [], maxSize := maxSize, groupTimeout := 500,
    savedDepth := some 0 }

/-- `History.canMerge`: same type, within the grouping window, and
spatially adjacent (insert extends the accumulated end; delete touches the
previous position or the one before it); `Replace` never merges. -/
def History.canMerge (h : History) (prev next : EditAction) : Bool :=
  if prev.type ≠ next.type then false
  else if next.timestamp - prev.timestamp > h.groupTimeout then false
  else match prev.type with
    | .insert =>
        if next.position = prev.position + (prev.text.length : Int) ∧ next.text.length = 1
        then true else false
    | .delete =>
        if next.position = prev.position - 1 ∨ next.position = prev.position
        then true else false
    | .replace => false

/-- `History.merge`: extend the previous entry's text/oldText and refresh
its timestamp. -/
def mergeActions (prev next : EditAction) : EditAction :=
  match prev.type with
  | .insert => { prev with text := prev.text ++ next.text, timestamp := next.timestamp }
  | .delete =>
      if next.position < prev.position then
        { prev with oldText := next.oldText ++ prev.oldText, position := next.position,
                    timestamp := next.timestamp }
      else { prev with oldText := prev.oldText ++ next.oldText, timestamp := next.timestamp }
  | .replace => { prev with timestamp := next.timestamp }

/-- Append a fresh entry (redo stack already cleared by `Push`), evicting
the oldest entry when over capacity. -/
def History.pushTrim (h : History) (a : EditAction) : History :=
  if (a :: h.undoStack).length > h.maxSize then
    { h with redoStack := [], undoStack := (a :: h.undoStack).dropLast }
  else { h with redoStack := [], undoStack := a :: h.undoStack }

/-- `History.Push`: timestamp the action with `now`, clear the redo stack,
merge with the top entry when possible, otherwise append (and trim). -/
def History.Push (h : History) (now : Int) (action : EditAction) : History :=
  match hu : h.undoStack with
  | last :: rest =>
      if h.canMerge last { action with timestamp := now } then
        { h with redoStack := []
                 undoStack := mergeActions last { action with timestamp := now } :: rest }
      else h.pushTrim { action with timestamp := now }
  | [] => h.pushTrim { action with timestamp := now }

/-- `History.RecordInsert`. -/
def History.RecordInsert (h : History) (now : Int) (pos : Int) (text : List Char)
    (cursorPos : Position) : History :=
  h.Push now
    { type := .insert, position := pos, text := text, oldText := [], timestamp := 0,
      cursorPos := cursorPos }

/-- `History.RecordDelete`. -/
def History.RecordDelete (h : History) (now : Int) (pos : Int) (deletedText : List Char)
    (cursorPos : Position) : History :=
  h.Push now
    { type := .delete, position := pos, text := [], oldText := deletedText, timestamp := 0,
      cursorPos := cursorPos }

/-- `History.Undo`: pop the top undo entry onto the redo stack and return
it; `none` when empty. -/
def History.Undo (h : History) : History × Option EditAction :=
  match h.undoStack with
  | [] => (h, none)
  | a :: rest => ({ h with undoStack := rest, redoStack := a :: h.redoStack }, some a)

/-- `History.Redo`: pop the top redo entry onto the undo stack and return
it; `none` when empty. -/
def History.Redo (h : History) : History × Option EditAction :=
  match h.redoStack with
  | [] => (h, none)
  | a :: rest => ({ h with redoStack := rest, undoStack := a :: h.undoStack }, some a)

/-- `History.CanUndo`. -/
def History.CanUndo (h : History) : Bool := h.undoStack.length > 0

/-- `History.CanRedo`. -/
def History.CanRedo (h : History) : Bool := h.redoStack.length > 0

/-- `History.UndoCount`. -/
def History.UndoCount (h : History) : Nat := h.undoStack.length

/-- `History.RedoCount`. -/
def History.RedoCount (h : History) : Nat := h.redoStack.length

/-- `History.MarkSaved`.  Modelled from the spec: absent from the sources
(only the caller `TabState.MarkSaved` appears); records the undo-stack
depth at the moment of save. -/
def History.MarkSaved (h : History) : History := { h with savedDepth := some h.undoStack.length }

/-- `History.IsAtSavePoint`.  Modelled from the spec: absent from the
sources; the session is unmodified only when the undo stack is back to
exactly the saved depth. -/
def History.IsAtSavePoint (h : History) : Bool := h.savedDepth = some h.undoStack.length

/-! ## Cursor, Selection, TabState -/

/-- `Cursor` from `cursor.go`. -/
structure Cursor where
  line : Int
  column : Int
  preferredCol : Int
deriving Repr, DecidableEq

/-- `NewCursor`. -/
def NewCursor : Cursor := ⟨0, 0, 0⟩

/-- `Selection` from `selection.go` (`endPos` is the source's `End`). -/
structure Selection where
  active : Bool
  start : Position
  endPos : Position
deriving Repr, DecidableEq

/-- `NewSelection`. -/
def NewSelection : Selection := { active := false, start := ⟨0, 0⟩, endPos := ⟨0, 0⟩ }

/-- `TabState` from `tabstate.go` (the syntax highlighter is display-layer
state outside this core and is omitted). -/
structure TabState where
  buffer : Buffer
  cursor : Cursor
  selection : Selection
  history : History
  scrollX : Int
  scrollY : Int
deriving Repr, DecidableEq

/-- `NewTabState`. -/
def NewTabState : TabState :=
  { buffer := NewBuffer, cursor := NewCursor, selection := NewSelection,
    history := NewHistory defaultHistoryMax, scrollX := 0, scrollY := 0 }

/-- `TabState.Modified`: derived from the history's save point. -/
def TabState.Modified (ts : TabState) : Bool := !ts.history.IsAtSavePoint

/-- An undo or redo call on the history. -/
inductive UROp where
  | undo
  | redo
deriving Repr, DecidableEq

/-- Apply an undo/redo call to the history (state component). -/
def History.applyUR (h : History) : UROp → History
  | .undo => h.Undo.1
  | .redo => h.Redo.1

theorem History.applyUR_savedDepth (h : History) (op : UROp) :
    (h.applyUR op).savedDepth = h.savedDepth := by
  cases op
  · show (h.Undo.1).savedDepth = h.savedDepth
    unfold History.Undo
    cases h.undoStack <;> rfl
  · show (h.Redo.1).savedDepth = h.savedDepth
    unfold History.Redo
    cases h.redoStack <;> rfl

theorem History.foldUR_savedDepth (h : History) (ops : List UROp) :
    (ops.foldl History.applyUR h).savedDepth = h.savedDepth := by
  induction ops generalizing h with
  | nil => rfl
  | cons op rest ih =>
    rw [List.foldl_cons, ih, History.applyUR_savedDepth]

/-- **C3** (save-point invariant): after `MarkSaved`, any sequence of
`Undo`/`Redo` calls reports `IsAtSavePoint` exactly when the undo stack is
back at the depth it had at the moment of saving, and a `TabState` holding
that history reports `Modified = false` under the same condition; any
diverging stack depth reports the save point lost (modified). -/
theorem C3_savepoint (h : History) (ops : List UROp) :
    ((ops.foldl History.applyUR h.MarkSaved).IsAtSavePoint = true
      ↔ (ops.foldl History.applyUR h.MarkSaved).undoStack.length = h.undoStack.length) ∧
    (∀ ts : TabState, ts.history = ops.foldl History.applyUR h.MarkSaved →
      (ts.Modified = false
        ↔ (ops.foldl History.applyUR h.MarkSaved).undoStack.length = h.undoStack.length)) := by
  have hdepth : (ops.foldl History.applyUR h.MarkSaved).savedDepth
      = some h.undoStack.length := by
    rw [History.foldUR_savedDepth]
    rfl
  have hmain : (ops.foldl History.applyUR h.MarkSaved).IsAtSavePoint = true
      ↔ (ops.foldl History.applyUR h.MarkSaved).undoStack.length = h.undoStack.length := by
    unfold History.IsAtSavePoint
    rw [hdepth]
    simp only [decide_eq_true_eq, Option.some.injEq]
    exact eq_comm
  refine ⟨hmain, ?_⟩
  intro ts hts
  unfold TabState.Modified
  rw [hts]
  rw [← hmain]
  cases (ops.foldl History.applyUR h.MarkSaved).IsAtSavePoint <;> simp

/-- Concrete one-entry history used by the C3 witness. -/
def histEx : History :=
  { undoStack := [actX], redoStack := [], maxSize := 1000, groupTimeout := 500,
    savedDepth := some 0 }

theorem C3_savepoint_witness :
    ([UROp.undo, UROp.redo].foldl History.applyUR histEx.MarkSaved).IsAtSavePoint = true :=
  (C3_savepoint histEx [UROp.undo, UROp.redo]).1.mpr (by decide)

/-- **C6** (merge window): pushing two single-character insert actions,
the second landing exactly at the end offset of the first within the
500 ms grouping window, leaves exactly one merged entry on the undo
stack; separated by more than the window, or at a non-adjacent offset,
they leave two entries. -/
theorem C6_merge_window (n : Nat) (hn : 2 ≤ n) (p1 p2 t1 t2 : Int) (c1 c2 : Char)
    (cp1 cp2 : Position) :
    ((p2 = p1 + 1 ∧ t2 - t1 ≤ 500) →
      (((NewHistory n).RecordInsert t1 p1 [c1] cp1).RecordInsert t2 p2 [c2] cp2).undoStack
        = [{ type := .insert, position := p1, text := [c1, c2], oldText := [],
             timestamp := t2, cursorPos := cp1 }]) ∧
    ((t2 - t1 > 500 ∨ p2 ≠ p1 + 1) →
      ((((NewHistory n).RecordInsert t1 p1 [c1] cp1).RecordInsert t2 p2 [c2]
        cp2).undoStack.length = 2)) := by
  have h1 : (NewHistory n).RecordInsert t1 p1 [c1] cp1
      = { undoStack := [{ type := .insert, position := p1, text := [c1], oldText := [],
                          timestamp := t1, cursorPos := cp1 }],
          redoStack := [], maxSize := n, groupTimeout := 500, savedDepth := some 0 } := by
    show (NewHistory n).pushTrim _ = _
    unfold History.pushTrim NewHistory
    rw [if_neg (by simp; omega)]
  rw [h1]
  set a1 : EditAction :=
    { type := .insert, position := p1, text := [c1], oldText := [],
      timestamp := t1, cursorPos := cp1 } with ha1
  set h1s : History :=
    { undoStack := [a1], redoStack := [], maxSize := n, groupTimeout := 500,
      savedDepth := some 0 } with hh1
  set a2 : EditAction :=
    { type := .insert, position := p2, text := [c2], oldText := [],
      timestamp := t2, cursorPos := cp2 } with ha2
  have hpush : h1s.RecordInsert t2 p2 [c2] cp2
      = if h1s.canMerge a1 a2 then
          { h1s with redoStack := [], undoStack := [mergeActions a1 a2] }
        else h1s.pushTrim a2 := by
    rfl
  constructor
  · rintro ⟨hadj, htime⟩
    have hcm : h1s.canMerge a1 a2 = true := by
      unfold History.canMerge
      rw [if_neg (by simp [ha1, ha2])]
      rw [if_neg (by simp only [ha1, ha2, hh1]; omega)]
      simp only [ha1, ha2]
      rw [if_pos (by constructor <;> simp <;> omega)]
    rw [hpush, if_pos hcm]
    show ([mergeActions a1 a2] : List EditAction) = _
    unfold mergeActions
    simp only [ha1, ha2]
    rfl
  · intro hdiv
    have hcm : h1s.canMerge a1 a2 = false := by
      unfold History.canMerge
      rw [if_neg (by simp [ha1, ha2])]
      rcases hdiv with htime | hadj
      · rw [if_pos (by simp only [ha1, ha2, hh1]; omega)]
      · by_cases htime : t2 - t1 > 500
        · rw [if_pos (by simp only [ha1, ha2, hh1]; omega)]
        · rw [if_neg (by simp only [ha1, ha2, hh1]; omega)]
          simp only [ha1, ha2]
          rw [if_neg (by push_neg; intro hp; simp at hp ⊢; omega)]
    rw [hpush, if_neg (by rw [hcm]; simp)]
    unfold History.pushTrim
    rw [if_neg (by simp; omega)]
    simp

theorem C6_merge_window_witness :
    2 ≤ 1000 ∧
    ((((NewHistory 1000).RecordInsert 0 0 ['a'] ⟨0, 0⟩).RecordInsert 100 1 ['b']
        ⟨0, 1⟩).undoStack
      = [{ type := .insert, position := 0, text := ['a', 'b'], oldText := [],
           timestamp := 100, cursorPos := ⟨0, 0⟩ }]) :=
  ⟨by omega,
   (C6_merge_window 1000 (by omega) 0 1 0 100 'a' 'b' ⟨0, 0⟩ ⟨0, 1⟩).1 ⟨by omega, by omega⟩⟩

/-! ## Saving (buffer.go) and tab management (tabmanager.go) -/

/-- Outcome of the file-system interaction in `SaveAs` (`os.Create`,
`WriteString`, `Flush`); the file system is outside the embedding, so the
outcome is a parameter. -/
inductive SaveOutcome where
  | createFail
  | writeFail
  | flushFail
  | ok
deriving Repr, DecidableEq

/-- Expand normalized LF line endings back to CRLF (what `SaveAs` writes
when the detected style was CRLF). -/
def expandCRLF : List Char → List Char
  | [] => []
  | c :: rest => if c = '\n' then '\r' :: '\n' :: expandCRLF rest else c :: expandCRLF rest

/-- The bytes `SaveAs` writes: content with line endings re-expanded when
the buffer's detected style is CRLF. -/
def Buffer.saveContent (b : Buffer) : List Char :=
  if b.lineEnding = ['\r', '\n'] then expandCRLF b.Content else b.Content

/-- `Buffer.SaveAs`: on any I/O failure the buffer is returned unchanged
with an error (`true`); on success the path is recorded and the modified
flag cleared.  Returns `(buffer, error?)`. -/
def Buffer.SaveAs (b : Buffer) (path : List Char) (io : SaveOutcome) : Buffer × Bool :=
  match io with
  | .createFail => (b, true)
  | .writeFail => (b, true)
  | .flushFail => (b, true)
  | .ok => ({ b with filepath := path, modified := false }, false)

/-- `Buffer.Save`: error when no path is recorded, else `SaveAs` to the
recorded path. -/
def Buffer.Save (b : Buffer) (io : SaveOutcome) : Buffer × Bool :=
  if b.filepath = [] then (b, true) else b.SaveAs b.filepath io

/-- **C9** (failed save leaves the document unchanged): if `Save` or
`SaveAs` fails with an I/O error, the in-memory buffer is exactly as
before the call — content, recorded file path and line-ending style
included — and it still reports `Modified() = true` when it did before. -/
theorem C9_failed_save_unchanged (b : Buffer) (path : List Char) (io : SaveOutcome)
    (hfail : io ≠ .ok) :
    (b.SaveAs path io).1 = b ∧ (b.SaveAs path io).2 = true ∧
    (b.SaveAs path io).1.Content = b.Content ∧
    (b.SaveAs path io).1.filepath = b.filepath ∧
    (b.SaveAs path io).1.lineEnding = b.lineEnding ∧
    (b.Modified = true → (b.SaveAs path io).1.Modified = true) ∧
    ((b.Save io).2 = true → (b.Save io).1 = b) := by
  have hsa : (b.SaveAs path io).1 = b ∧ (b.SaveAs path io).2 = true := by
    cases io with
    | createFail => exact ⟨rfl, rfl⟩
    | writeFail => exact ⟨rfl, rfl⟩
    | flushFail => exact ⟨rfl, rfl⟩
    | ok => exact absurd rfl hfail
  refine ⟨hsa.1, hsa.2, by rw [hsa.1], by rw [hsa.1], by rw [hsa.1], by rw [hsa.1]; exact id, ?_⟩
  intro herr
  unfold Buffer.Save at herr ⊢
  by_cases hfp : b.filepath = []
  · rw [if_pos hfp]
  · rw [if_neg hfp] at herr ⊢
    cases io with
    | createFail => rfl
    | writeFail => rfl
    | flushFail => rfl
    | ok => simp [Buffer.SaveAs] at herr

theorem C9_failed_save_unchanged_witness :
    SaveOutcome.writeFail ≠ SaveOutcome.ok ∧
    (bufTest.SaveAs "f.txt".toList SaveOutcome.writeFail).1 = bufTest :=
  ⟨by decide, (C9_failed_save_unchanged bufTest "f.txt".toList SaveOutcome.writeFail
    (by decide)).1⟩

/-- `TabManager` from `tabmanager.go`. -/
structure TabManager where
  tabs : List TabState
  activeIdx : Int
deriving Repr, DecidableEq

/-- `NewTabManager`: one empty tab. -/
def NewTabManager : TabManager := { tabs := [NewTabState], activeIdx := 0 }

/-- `TabManager.AddTab`. -/
def TabManager.AddTab (tm : TabManager) : TabManager :=
  { tm with tabs := tm.tabs ++ [NewTabState], activeIdx := (tm.tabs.length + 1 : Nat) - 1 }

/-- `TabManager.AddTabFromFile`.  `abs` models `filepath.Abs` (with its
error fallback already applied) and `loaded` the outcome of
`NewTabStateFromFile`: `none` is a load error, `some ts` the loaded tab. -/
def TabManager.AddTabFromFile (tm : TabManager) (abs : List Char → List Char)
    (path : List Char) (loaded : Option TabState) : TabManager :=
  match tm.tabs.findIdx? (fun tab => abs tab.buffer.filepath = abs path) with
  | some i => { tm with activeIdx := (i : Int) }
  | none =>
      match loaded with
      | none => tm
      | some ts =>
          { tm with tabs := tm.tabs ++ [ts], activeIdx := (tm.tabs.length + 1 : Nat) - 1 }

/-- `TabManager.CloseTab`: out-of-range indices are rejected; closing the
last remaining tab replaces it with a fresh empty tab; otherwise the tab
is removed and the active index adjusted. -/
def TabManager.CloseTab (tm : TabManager) (idx : Int) : TabManager :=
  if idx < 0 ∨ idx ≥ (tm.tabs.length : Int) then tm
  else if tm.tabs.length = 1 then { tm with tabs := [NewTabState] }
  else
    { tm with
      tabs := tm.tabs.eraseIdx idx.toNat
      activeIdx :=
        if tm.activeIdx ≥ ((tm.tabs.length - 1 : Nat) : Int) then ((tm.tabs.length - 1 : Nat) : Int) - 1
        else if tm.activeIdx > idx then tm.activeIdx - 1
        else tm.activeIdx }

/-- `TabManager.CloseActiveTab`. -/
def TabManager.CloseActiveTab (tm : TabManager) : TabManager := tm.CloseTab tm.activeIdx

/-- `TabManager.SwitchTab`. -/
def TabManager.SwitchTab (tm : TabManager) (idx : Int) : TabManager :=
  if 0 ≤ idx ∧ idx < (tm.tabs.length : Int) then { tm with activeIdx := idx } else tm

/-- One tab-manager operation, with the external inputs of
`AddTabFromFile` carried in the operation. -/
inductive TMOp where
  | addTab
  | addTabFromFile (abs : List Char → List Char) (path : List Char) (loaded : Option TabState)
  | closeTab (idx : Int)
  | closeActiveTab
  | switchTab (idx : Int)

/-- Apply a tab-manager operation. -/
def TabManager.applyTMOp (tm : TabManager) : TMOp → TabManager
  | .addTab => tm.AddTab
  | .addTabFromFile abs path loaded => tm.AddTabFromFile abs path loaded
  | .closeTab idx => tm.CloseTab idx
  | .closeActiveTab => tm.CloseActiveTab
  | .switchTab idx => tm.SwitchTab idx

/-- **C10** (at least one session): the tab manager starts with exactly
one empty tab, and no sequence of AddTab/AddTabFromFile/CloseTab/
CloseActiveTab/SwitchTab operations ever leaves zero tabs — closing the
last remaining tab replaces it with a fresh empty tab. -/
theorem C10_never_zero_tabs :
    NewTabManager.tabs.length = 1 ∧
    ∀ ops : List TMOp, 1 ≤ (ops.foldl TabManager.applyTMOp NewTabManager).tabs.length := by
  refine ⟨rfl, ?_⟩
  have hstep : ∀ (tm : TabManager) (op : TMOp),
      1 ≤ tm.tabs.length → 1 ≤ (tm.applyTMOp op).tabs.length := by
    intro tm op htm
    cases op with
    | addTab =>
      show 1 ≤ (tm.tabs ++ [NewTabState]).length
      simp
    | addTabFromFile abs path loaded =>
      show 1 ≤ (tm.AddTabFromFile abs path loaded).tabs.length
      unfold TabManager.AddTabFromFile
      cases tm.tabs.findIdx? (fun tab => abs tab.buffer.filepath = abs path) with
      | some i => exact htm
      | none =>
        cases loaded with
        | none => exact htm
        | some ts => simp
    | closeTab idx =>
      show 1 ≤ (tm.CloseTab idx).tabs.length
      unfold TabManager.CloseTab
      by_cases hrange : idx < 0 ∨ idx ≥ (tm.tabs.length : Int)
      · rw [if_pos hrange]; exact htm
      · rw [if_neg hrange]
        by_cases hone : tm.tabs.length = 1
        · rw [if_pos hone]; simp
        · rw [if_neg hone]
          show 1 ≤ (tm.tabs.eraseIdx idx.toNat).length
          rw [List.length_eraseIdx]
          push_neg at hrange
          split <;> omega
    | closeActiveTab =>
      show 1 ≤ (tm.CloseTab tm.activeIdx).tabs.length
      unfold TabManager.CloseTab
      by_cases hrange : tm.activeIdx < 0 ∨ tm.activeIdx ≥ (tm.tabs.length : Int)
      · rw [if_pos hrange]; exact htm
      · rw [if_neg hrange]
        by_cases hone : tm.tabs.length = 1
        · rw [if_pos hone]; simp
        · rw [if_neg hone]
          show 1 ≤ (tm.tabs.eraseIdx tm.activeIdx.toNat).length
          rw [List.length_eraseIdx]
          push_neg at hrange
          split <;> omega
    | switchTab idx =>
      show 1 ≤ (tm.SwitchTab idx).tabs.length
      unfold TabManager.SwitchTab
      split <;> exact htm
  intro ops
  have : ∀ tm : TabManager, 1 ≤ tm.tabs.length →
      1 ≤ (ops.foldl TabManager.applyTMOp tm).tabs.length := by
    induction ops with
    | nil => intro tm htm; exact htm
    | cons op rest ih =>
      intro tm htm
      exact ih _ (hstep tm op htm)
  exact this NewTabManager (by rfl)

/-! ## Search (FindNext/FindPrevious, buffer.go)

Go strings are byte sequences; `strings.Index`/`LastIndex` work on UTF-8
bytes and `content[pos:]` slices by bytes, panicking when `pos` exceeds
the byte length.  The embedding encodes the rune sequence to UTF-8 bytes;
`FindNext` returns `none` for the panic. -/

/-- UTF-8 encoding of a rune. -/
def utf8Bytes (c : Char) : List Nat :=
  if c.toNat < 0x80 then [c.toNat]
  else if c.toNat < 0x800 then [0xC0 + c.toNat / 64, 0x80 + c.toNat % 64]
  else if c.toNat < 0x10000 then
    [0xE0 + c.toNat / 4096, 0x80 + c.toNat / 64 % 64, 0x80 + c.toNat % 64]
  else [0xF0 + c.toNat / 262144, 0x80 + c.toNat / 4096 % 64, 0x80 + c.toNat / 64 % 64,
        0x80 + c.toNat % 64]

/-- The bytes of a Go string holding these runes. -/
def strBytes (s : List Char) : List Nat := (s.map utf8Bytes).flatten

/-- Go `strings.ToLower` maps every Unicode letter to lower case via the
Unicode case tables.  The embedding models that mapping exactly on code
points below `0x100` — there it lowers precisely `'A'`–`'Z'` and
`'À'`–`'Þ'` except `'×'`, each by adding 32 — and leaves higher code
points unchanged, whereas Go also folds letters from `U+0100` up; the
case-insensitive conclusions of `C7_find_byte_offsets` are therefore
restricted to ASCII content and needle (case-sensitive search never
folds). -/
def goToLower (c : Char) : Char :=
  if ('A' ≤ c ∧ c ≤ 'Z') ∨ ('À' ≤ c ∧ c ≤ 'Þ' ∧ c ≠ '×') then Char.ofNat (c.toNat + 32)
  else c

/-- Case folding applied by `FindNext`/`FindPrevious` when the search is
case-insensitive. -/
def foldCase (cs : Bool) (s : List Char) : List Char :=
  if cs then s else s.map goToLower

/-- Scan of Go `strings.Index`: the least index at which `n` occurs
(instantiated at bytes by the search, at runes by the reference model). -/
def goIndexAux {α : Type} [BEq α] (n : List α) : List α → Nat → Int
  | [], i => if n.isPrefixOf ([] : List α) then (i : Int) else -1
  | c :: t, i => if n.isPrefixOf (c :: t) then (i : Int) else goIndexAux n t (i + 1)

/-- Go `strings.Index`: least index of an occurrence of `n` in `h`, `-1`
when absent (`0` for an empty needle). -/
def goIndex {α : Type} [BEq α] (h n : List α) : Int := goIndexAux n h 0

/-- Scan of Go `strings.LastIndex`, tracking the best (rightmost) match. -/
def goLastIndexAux {α : Type} [BEq α] (n : List α) : List α → Nat → Int → Int
  | [], i, best => if n.isPrefixOf ([] : List α) then (i : Int) else best
  | c :: t, i, best =>
      goLastIndexAux n t (i + 1) (if n.isPrefixOf (c :: t) then (i : Int) else best)

/-- Go `strings.LastIndex`. -/
def goLastIndex {α : Type} [BEq α] (h n : List α) : Int := goLastIndexAux n h 0 (-1)

/-- `Buffer.FindNext`: `-1` for an empty needle; case-fold both sides when
case-insensitive; clamp a negative `pos` to 0; then `strings.Index` on the
byte slice `content[pos:]` — which panics (`none`) when `pos` exceeds the
content's byte length, as Go's slicing does. -/
def Buffer.FindNext (b : Buffer) (text : List Char) (pos : Int) (cs : Bool) : Option Int :=
  if text = [] then some (-1)
  else if subLo pos > ((strBytes (foldCase cs b.Content)).length : Int) then none
  else if goIndex ((strBytes (foldCase cs b.Content)).drop (subLo pos).toNat)
      (strBytes (foldCase cs text)) = -1 then some (-1)
  else some (subLo pos
    + goIndex ((strBytes (foldCase cs b.Content)).drop (subLo pos).toNat)
        (strBytes (foldCase cs text)))

/-- `Buffer.FindPrevious`: `-1` for an empty needle or `pos ≤ 0`;
case-fold both sides when case-insensitive; clamp `pos` down to the byte
length; then `strings.LastIndex` on the byte prefix `content[:pos]`. -/
def Buffer.FindPrevious (b : Buffer) (text : List Char) (pos : Int) (cs : Bool) : Int :=
  if text = [] ∨ pos ≤ 0 then -1
  else goLastIndex ((strBytes (foldCase cs b.Content)).take
      (subHi (strBytes (foldCase cs b.Content)).length pos).toNat)
    (strBytes (foldCase cs text))

theorem goIndexAux_spec {α : Type} [BEq α] (n : List α) : ∀ (h : List α) (i : Nat),
    (goIndexAux n h i = -1 → ∀ k : Nat, n.isPrefixOf (h.drop k) = false) ∧
    (goIndexAux n h i ≠ -1 → ∃ k : Nat, goIndexAux n h i = (i : Int) + k ∧
      n.isPrefixOf (h.drop k) = true ∧ ∀ j : Nat, j < k → n.isPrefixOf (h.drop j) = false) := by
  intro h
  induction h with
  | nil =>
    intro i
    by_cases hp : n.isPrefixOf ([] : List α) = true
    · rw [goIndexAux, if_pos hp]
      constructor
      · intro hcon; omega
      · intro _
        exact ⟨0, by omega, by rw [List.drop_nil]; exact hp, by omega⟩
    · rw [goIndexAux, if_neg hp]
      constructor
      · intro _ k
        rw [List.drop_nil]
        simp only [Bool.not_eq_true] at hp
        exact hp
      · intro hcon; omega
  | cons c t ih =>
    intro i
    by_cases hp : n.isPrefixOf (c :: t) = true
    · rw [goIndexAux, if_pos hp]
      constructor
      · intro hcon; omega
      · intro _
        exact ⟨0, by omega, by rw [List.drop_zero]; exact hp, by omega⟩
    · rw [goIndexAux, if_neg hp]
      obtain ⟨ih1, ih2⟩ := ih (i + 1)
      constructor
      · intro hm1 k
        cases k with
        | zero =>
          rw [List.drop_zero]
          simp only [Bool.not_eq_true] at hp
          exact hp
        | succ k' =>
          rw [List.drop_succ_cons]
          exact ih1 hm1 k'
      · intro hne
        obtain ⟨k', he, hocc, hmin⟩ := ih2 hne
        refine ⟨k' + 1, by rw [he]; push_cast; ring, ?_, ?_⟩
        · rw [List.drop_succ_cons]; exact hocc
        · intro j hj
          cases j with
          | zero =>
            rw [List.drop_zero]
            simp only [Bool.not_eq_true] at hp
            exact hp
          | succ j' =>
            rw [List.drop_succ_cons]
            exact hmin j' (by omega)

theorem goLastIndexAux_spec {α : Type} [BEq α] (n : List α) :
    ∀ (h : List α) (i : Nat) (best : Int),
    (goLastIndexAux n h i best = best ∧
      ∀ k : Nat, k ≤ h.length → n.isPrefixOf (h.drop k) = false) ∨
    (∃ m : Nat, m ≤ h.length ∧ n.isPrefixOf (h.drop m) = true ∧
      goLastIndexAux n h i best = (i : Int) + m ∧
      ∀ j : Nat, m < j → j ≤ h.length → n.isPrefixOf (h.drop j) = false) := by
  intro h
  induction h with
  | nil =>
    intro i best
    by_cases hp : n.isPrefixOf ([] : List α) = true
    · right
      exact ⟨0, by omega, by rw [List.drop_nil]; exact hp,
        by rw [goLastIndexAux, if_pos hp]; omega,
        by intro j hj1 hj2; simp at hj2; omega⟩
    · left
      refine ⟨by rw [goLastIndexAux, if_neg hp], ?_⟩
      intro k hk
      rw [List.drop_nil]
      simp only [Bool.not_eq_true] at hp
      exact hp
  | cons c t ih =>
    intro i best
    rw [goLastIndexAux]
    by_cases hp : n.isPrefixOf (c :: t) = true
    · rw [if_pos hp]
      rcases ih (i + 1) (i : Int) with ⟨hres, hnone⟩ | ⟨m, hm, hocc, hres, hmax⟩
      · right
        refine ⟨0, by omega, by rw [List.drop_zero]; exact hp, by rw [hres]; omega, ?_⟩
        intro j hj1 hj2
        cases j with
        | zero => omega
        | succ j' =>
          rw [List.drop_succ_cons]
          exact hnone j' (by simpa using hj2)
      · right
        refine ⟨m + 1, by simpa using hm, by rw [List.drop_succ_cons]; exact hocc,
          by rw [hres]; push_cast; ring, ?_⟩
        intro j hj1 hj2
        cases j with
        | zero => omega
        | succ j' =>
          rw [List.drop_succ_cons]
          exact hmax j' (by omega) (by simpa using hj2)
    · rw [if_neg hp]
      rcases ih (i + 1) best with ⟨hres, hnone⟩ | ⟨m, hm, hocc, hres, hmax⟩
      · left
        refine ⟨hres, ?_⟩
        intro k hk
        cases k with
        | zero =>
          rw [List.drop_zero]
          simp only [Bool.not_eq_true] at hp
          exact hp
        | succ k' =>
          rw [List.drop_succ_cons]
          exact hnone k' (by simpa using hk)
      · right
        refine ⟨m + 1, by simpa using hm, by rw [List.drop_succ_cons]; exact hocc,
          by rw [hres]; push_cast; ring, ?_⟩
        intro j hj1 hj2
        cases j with
        | zero => omega
        | succ j' =>
          rw [List.drop_succ_cons]
          exact hmax j' (by omega) (by simpa using hj2)

theorem toNat_ofNat_lt (n : Nat) (h : n < 256) : (Char.ofNat n).toNat = n := by
  have hv : n.isValidChar := Or.inl (by omega)
  simp [Char.ofNat, hv, Char.toNat, Char.ofNatAux, UInt32.toNat, UInt32.ofNatCore,
    BitVec.toNat_ofNatLt]

theorem char_toNat_inj {c d : Char} (h : c.toNat = d.toNat) : c = d := by
  rw [← Char.ofNat_toNat c, ← Char.ofNat_toNat d, h]

theorem toNat_beq_toNat (c d : Char) : (c.toNat == d.toNat) = (c == d) := by
  by_cases h : c = d
  · subst h; simp
  · have hne : c.toNat ≠ d.toNat := fun hn => h (char_toNat_inj hn)
    rw [Bool.eq_iff_iff]
    simp [beq_iff_eq, h, hne]

theorem charLe_toNat {c d : Char} (h : c ≤ d) : c.toNat ≤ d.toNat := h

theorem goToLower_ascii (c : Char) (h : c.toNat < 128) : (goToLower c).toNat < 128 := by
  unfold goToLower
  split_ifs with hif
  · rcases hif with ⟨h1, h2⟩ | ⟨h1, _, _⟩
    · have hA : (65 : Nat) ≤ c.toNat := charLe_toNat h1
      have hZ : c.toNat ≤ 90 := charLe_toNat h2
      rw [toNat_ofNat_lt (c.toNat + 32) (by omega)]
      omega
    · have h192 : (192 : Nat) ≤ c.toNat := charLe_toNat h1
      omega
  · exact h

theorem map_goToLower_ascii (s : List Char) (h : ∀ c ∈ s, c.toNat < 128) :
    ∀ c ∈ s.map goToLower, c.toNat < 128 := by
  intro c hc
  rw [List.mem_map] at hc
  obtain ⟨d, hd, hdc⟩ := hc
  rw [← hdc]
  exact goToLower_ascii d (h d hd)

theorem utf8Bytes_ascii (c : Char) (h : c.toNat < 128) : utf8Bytes c = [c.toNat] := by
  unfold utf8Bytes
  rw [if_pos (by omega)]

theorem strBytes_ascii : ∀ (s : List Char), (∀ c ∈ s, c.toNat < 128) →
    strBytes s = s.map Char.toNat := by
  intro s
  induction s with
  | nil => intro _; rfl
  | cons c t ih =>
    intro hs
    rw [strBytes, List.map_cons, List.flatten_cons, utf8Bytes_ascii c (hs c (by simp)),
      List.map_cons]
    have ht := ih (fun d hd => hs d (by simp [hd]))
    rw [strBytes] at ht
    rw [ht]
    rfl

theorem isPrefixOf_map_toNat (n : List Char) : ∀ (h : List Char),
    ((n.map Char.toNat).isPrefixOf (h.map Char.toNat)) = n.isPrefixOf h := by
  induction n with
  | nil => intro h; cases h <;> rfl
  | cons a n' ih =>
    intro h
    cases h with
    | nil => rfl
    | cons b h' =>
      show (a.toNat == b.toNat && (n'.map Char.toNat).isPrefixOf (h'.map Char.toNat))
          = (a == b && n'.isPrefixOf h')
      rw [toNat_beq_toNat, ih h']

theorem goIndexAux_map (n : List Char) : ∀ (h : List Char) (i : Nat),
    goIndexAux (n.map Char.toNat) (h.map Char.toNat) i = goIndexAux n h i := by
  intro h
  induction h with
  | nil =>
    intro i
    simp only [List.map_nil]
    rw [goIndexAux, goIndexAux]
    have hmp := isPrefixOf_map_toNat n []
    simp only [List.map_nil] at hmp
    rw [hmp]
  | cons c t ih =>
    intro i
    simp only [List.map_cons]
    rw [goIndexAux, goIndexAux]
    have hmp := isPrefixOf_map_toNat n (c :: t)
    simp only [List.map_cons] at hmp
    rw [hmp]
    by_cases hp : n.isPrefixOf (c :: t) = true
    · rw [if_pos hp, if_pos hp]
    · rw [if_neg hp, if_neg hp]
      exact ih (i + 1)

theorem goLastIndexAux_map (n : List Char) : ∀ (h : List Char) (i : Nat) (best : Int),
    goLastIndexAux (n.map Char.toNat) (h.map Char.toNat) i best
      = goLastIndexAux n h i best := by
  intro h
  induction h with
  | nil =>
    intro i best
    simp only [List.map_nil]
    rw [goLastIndexAux, goLastIndexAux]
    have hmp := isPrefixOf_map_toNat n []
    simp only [List.map_nil] at hmp
    rw [hmp]
  | cons c t ih =>
    intro i best
    simp only [List.map_cons]
    rw [goLastIndexAux, goLastIndexAux]
    have hmp := isPrefixOf_map_toNat n (c :: t)
    simp only [List.map_cons] at hmp
    rw [hmp]
    exact ih (i + 1) _

theorem goIndexAux_acc {α : Type} [BEq α] (n : List α) : ∀ (h : List α),
    (∀ i : Nat, goIndexAux n h i = -1) ∨
    (∃ k : Nat, ∀ i : Nat, goIndexAux n h i = (i : Int) + (k : Int)) := by
  intro h
  induction h with
  | nil =>
    by_cases hp : n.isPrefixOf ([] : List α) = true
    · exact Or.inr ⟨0, fun i => by rw [goIndexAux, if_pos hp]; omega⟩
    · exact Or.inl (fun i => by rw [goIndexAux, if_neg hp])
  | cons c t ih =>
    by_cases hp : n.isPrefixOf (c :: t) = true
    · exact Or.inr ⟨0, fun i => by rw [goIndexAux, if_pos hp]; omega⟩
    · rcases ih with hall | ⟨k, hk⟩
      · exact Or.inl (fun i => by rw [goIndexAux, if_neg hp]; exact hall (i + 1))
      · refine Or.inr ⟨k + 1, fun i => ?_⟩
        rw [goIndexAux, if_neg hp, hk (i + 1)]
        push_cast
        ring

/-- Reference model of claim C7's wording: the character offset of the
first occurrence of `needle` at or after character offset `start`, `-1`
when none. -/
def charIndexOfFrom (hay needle : List Char) (start : Nat) : Int :=
  goIndexAux needle (hay.drop start) start

/-- Reference model of claim C7's backward-search wording: the greatest
character offset at which `needle` occurs entirely within the first
`stop` characters of `hay`, `-1` when none. -/
def charLastIndexWithin (hay needle : List Char) (stop : Nat) : Int :=
  goLastIndex (hay.take stop) needle

/-- Concrete buffer with content `"éa"` (a two-byte rune then an ASCII
rune). -/
def bufUni : Buffer :=
  { data := ['é', 'a'], gapStart := 2, gapEnd := 2, lines := [0],
    modified := true, filepath := [], encoding := "UTF-8".toList, lineEnding := ['\n'] }

/-- Concrete buffer with content `"a"`. -/
def bufA : Buffer :=
  { data := ['a'], gapStart := 1, gapEnd := 1, lines := [0],
    modified := true, filepath := [], encoding := "UTF-8".toList, lineEnding := ['\n'] }

/-- **C7** (counterexample): the claim says `FindNext` returns character
offsets; on the content `"éa"` the first occurrence of `"a"` is at
character offset 1, but `FindNext` returns the UTF-8 byte offset 2. -/
theorem C7_counterexample :
    bufUni.Content = ['é', 'a'] ∧
    charIndexOfFrom bufUni.Content ['a'] 0 = 1 ∧
    bufUni.FindNext ['a'] 0 true = some 2 ∧ (2 : Int) ≠ 1 := by decide

/-- **C7 (amended)**: all positions of `FindNext`/`FindPrevious` are byte
offsets into the UTF-8 encoding of the case-folded content, not character
offsets.  An empty needle yields `-1`.  Case-sensitively (no folding, any
content): a `fromOffset` beyond the content's byte length makes
`FindNext` fault (`none` — the C8 slice panic) instead of returning `-1`;
otherwise `FindNext` returns the least byte offset `≥ max(fromOffset, 0)`
of an occurrence of the needle, or `-1` when there is none, and
`FindPrevious` (which clamps both ends) returns the greatest byte offset
of an occurrence lying entirely within the first `fromOffset` bytes, or
`-1`.  Case-insensitively both sides are folded by `strings.ToLower`
first; that is stated here for ASCII content and needle — where the
model's fold is exactly Go's and byte offsets coincide with character
offsets — and there the results are exactly the character offsets of the
first (`FindNext`) / last fitting (`FindPrevious`) folded occurrence. -/
theorem C7_find_byte_offsets (b : Buffer) (text : List Char) (pos : Int) (cs : Bool) :
    (text = [] → b.FindNext text pos cs = some (-1) ∧ b.FindPrevious text pos cs = -1) ∧
    (cs = true → text ≠ [] →
      ((((strBytes b.Content).length : Int) < pos → b.FindNext text pos cs = none) ∧
      (pos ≤ ((strBytes b.Content).length : Int) →
        ∃ r : Int, b.FindNext text pos cs = some r ∧
          ((r = -1 ∧ ∀ k : Nat, (subLo pos).toNat ≤ k →
              (strBytes text).isPrefixOf ((strBytes b.Content).drop k) = false) ∨
            (subLo pos ≤ r ∧ ∃ k : Nat, r = (k : Int) ∧
              (strBytes text).isPrefixOf ((strBytes b.Content).drop k) = true ∧
              ∀ j : Nat, (subLo pos).toNat ≤ j → j < k →
                (strBytes text).isPrefixOf ((strBytes b.Content).drop j) = false))) ∧
      (0 < pos →
        ((b.FindPrevious text pos cs = -1 ∧
            ∀ k : Nat, k ≤ ((strBytes b.Content).take
                (subHi (strBytes b.Content).length pos).toNat).length →
              (strBytes text).isPrefixOf (((strBytes b.Content).take
                (subHi (strBytes b.Content).length pos).toNat).drop k) = false) ∨
          (∃ m : Nat, b.FindPrevious text pos cs = (m : Int) ∧
            (strBytes text).isPrefixOf (((strBytes b.Content).take
              (subHi (strBytes b.Content).length pos).toNat).drop m) = true ∧
            ∀ j : Nat, m < j → j ≤ ((strBytes b.Content).take
                (subHi (strBytes b.Content).length pos).toNat).length →
              (strBytes text).isPrefixOf (((strBytes b.Content).take
                (subHi (strBytes b.Content).length pos).toNat).drop j) = false))))) ∧
    (cs = false → (∀ c ∈ b.Content, c.toNat < 128) → (∀ c ∈ text, c.toNat < 128) →
      text ≠ [] →
      (((b.Content.length : Int) < pos → b.FindNext text pos cs = none) ∧
      (pos ≤ (b.Content.length : Int) →
        b.FindNext text pos cs = some (charIndexOfFrom (b.Content.map goToLower)
          (text.map goToLower) (subLo pos).toNat)) ∧
      (0 < pos →
        b.FindPrevious text pos cs = charLastIndexWithin (b.Content.map goToLower)
          (text.map goToLower) (subHi b.Content.length pos).toNat))) := by
  refine ⟨?_, ?_, ?_⟩
  · intro he
    constructor
    · unfold Buffer.FindNext
      rw [if_pos he]
    · unfold Buffer.FindPrevious
      rw [if_pos (Or.inl he)]
  · intro hcs htext
    subst hcs
    have hf : ∀ s : List Char, foldCase true s = s := fun s => rfl
    have h0 : (0 : Int) ≤ subLo pos := by unfold subLo; split_ifs <;> omega
    refine ⟨?_, ?_, ?_⟩
    · intro hbig
      unfold Buffer.FindNext
      rw [if_neg htext]
      simp only [hf]
      have hgt : subLo pos > ((strBytes b.Content).length : Int) := by
        unfold subLo
        rw [if_neg (show ¬pos < 0 by omega)]
        omega
      rw [if_pos hgt]
    · intro hle
      unfold Buffer.FindNext
      rw [if_neg htext]
      simp only [hf]
      have hsle : subLo pos ≤ ((strBytes b.Content).length : Int) := by
        unfold subLo; split_ifs <;> omega
      rw [if_neg (by omega)]
      by_cases hgi : goIndex ((strBytes b.Content).drop (subLo pos).toNat) (strBytes text) = -1
      · rw [if_pos hgi]
        refine ⟨-1, rfl, Or.inl ⟨rfl, ?_⟩⟩
        intro k hk
        have hspec := (goIndexAux_spec (strBytes text)
          ((strBytes b.Content).drop (subLo pos).toNat) 0).1 hgi (k - (subLo pos).toNat)
        have hdd : ((strBytes b.Content).drop (subLo pos).toNat).drop (k - (subLo pos).toNat)
            = (strBytes b.Content).drop k := by
          rw [List.drop_drop]
          congr 1
          omega
        rw [← hdd]
        exact hspec
      · rw [if_neg hgi]
        obtain ⟨k', he, hocc, hmin⟩ := (goIndexAux_spec (strBytes text)
          ((strBytes b.Content).drop (subLo pos).toNat) 0).2 hgi
        have he' : goIndex ((strBytes b.Content).drop (subLo pos).toNat)
            (strBytes text) = ((0 : Nat) : Int) + (k' : Int) := he
        refine ⟨_, rfl, Or.inr ⟨by rw [he']; omega, (subLo pos).toNat + k',
          by rw [he']; push_cast; omega, ?_, ?_⟩⟩
        · have hdd : ((strBytes b.Content).drop (subLo pos).toNat).drop k'
              = (strBytes b.Content).drop ((subLo pos).toNat + k') := by
            rw [List.drop_drop]
          rw [← hdd]
          exact hocc
        · intro j hj1 hj2
          have hdd : ((strBytes b.Content).drop (subLo pos).toNat).drop (j - (subLo pos).toNat)
              = (strBytes b.Content).drop j := by
            rw [List.drop_drop]
            congr 1
            omega
          rw [← hdd]
          exact hmin (j - (subLo pos).toNat) (by omega)
    · intro hpos
      unfold Buffer.FindPrevious
      rw [if_neg (by push_neg; exact ⟨htext, by omega⟩)]
      simp only [hf]
      rcases goLastIndexAux_spec (strBytes text)
          ((strBytes b.Content).take (subHi (strBytes b.Content).length pos).toNat) 0 (-1)
        with ⟨hres, hnone⟩ | ⟨m, hm, hocc, hres, hmax⟩
      · left
        exact ⟨hres, hnone⟩
      · right
        refine ⟨m, ?_, hocc, hmax⟩
        show goLastIndexAux _ _ 0 (-1) = (m : Int)
        rw [hres]
        omega
  · intro hcs hbc htxt htext
    subst hcs
    have hfold : ∀ s : List Char, foldCase false s = s.map goToLower := fun s => rfl
    have hb1 : strBytes (b.Content.map goToLower) = (b.Content.map goToLower).map Char.toNat :=
      strBytes_ascii _ (map_goToLower_ascii _ hbc)
    have ht1 : strBytes (text.map goToLower) = (text.map goToLower).map Char.toNat :=
      strBytes_ascii _ (map_goToLower_ascii _ htxt)
    have hblen : (strBytes (b.Content.map goToLower)).length = b.Content.length := by
      rw [hb1, List.length_map, List.length_map]
    have h0 : (0 : Int) ≤ subLo pos := by unfold subLo; split_ifs <;> omega
    refine ⟨?_, ?_, ?_⟩
    · intro hbig
      unfold Buffer.FindNext
      rw [if_neg htext]
      simp only [hfold]
      have hgt : subLo pos > ((strBytes (b.Content.map goToLower)).length : Int) := by
        rw [hblen]
        unfold subLo
        rw [if_neg (show ¬pos < 0 by omega)]
        omega
      rw [if_pos hgt]
    · intro hle
      unfold Buffer.FindNext
      rw [if_neg htext]
      simp only [hfold]
      have hsle : subLo pos ≤ ((strBytes (b.Content.map goToLower)).length : Int) := by
        rw [hblen]
        unfold subLo
        split_ifs <;> omega
      rw [if_neg (by omega)]
      have hgidx : goIndex ((strBytes (b.Content.map goToLower)).drop (subLo pos).toNat)
          (strBytes (text.map goToLower))
          = goIndexAux (text.map goToLower)
              ((b.Content.map goToLower).drop (subLo pos).toNat) 0 := by
        rw [hb1, ht1]
        show goIndexAux ((text.map goToLower).map Char.toNat)
            (((b.Content.map goToLower).map Char.toNat).drop (subLo pos).toNat) 0 = _
        rw [← List.map_drop]
        exact goIndexAux_map _ _ 0
      rcases goIndexAux_acc (text.map goToLower)
          ((b.Content.map goToLower).drop (subLo pos).toNat) with hall | ⟨k, hk⟩
      · rw [if_pos (by rw [hgidx]; exact hall 0)]
        have hc : charIndexOfFrom (b.Content.map goToLower) (text.map goToLower)
            (subLo pos).toNat = -1 := hall (subLo pos).toNat
        rw [hc]
      · rw [if_neg (by rw [hgidx, hk 0]; omega)]
        have hc : charIndexOfFrom (b.Content.map goToLower) (text.map goToLower)
            (subLo pos).toNat = (((subLo pos).toNat : Int) + (k : Int)) := hk (subLo pos).toNat
        rw [hc, hgidx, hk 0]
        congr 1
        omega
    · intro hpos
      unfold Buffer.FindPrevious
      rw [if_neg (by push_neg; exact ⟨htext, by omega⟩)]
      simp only [hfold]
      rw [hblen, hb1, ht1, ← List.map_take]
      exact goLastIndexAux_map (text.map goToLower)
        ((b.Content.map goToLower).take (subHi b.Content.length pos).toNat) 0 (-1)

/-- Witness for the amended C7 at concrete inputs: on the ASCII buffer
`"a"` the case-insensitive `FindNext`/`FindPrevious` return exactly the
character offsets of the folded occurrence (both `0` here), and a
`fromOffset` past the byte length makes `FindNext` fault (`none`). -/
theorem C7_find_byte_offsets_witness :
    (bufA.FindNext ['a'] 0 false
        = some (charIndexOfFrom (bufA.Content.map goToLower) (['a'].map goToLower)
            (subLo 0).toNat)) ∧
    (bufA.FindPrevious ['a'] 1 false
        = charLastIndexWithin (bufA.Content.map goToLower) (['a'].map goToLower)
            (subHi bufA.Content.length 1).toNat) ∧
    bufA.FindNext ['a'] 2 true = none ∧
    bufA.FindNext ['a'] 0 false = some 0 ∧
    bufA.FindPrevious ['a'] 1 false = 0 :=
  ⟨((C7_find_byte_offsets bufA ['a'] 0 false).2.2 rfl (by decide) (by decide)
      (by decide)).2.1 (by decide),
   ((C7_find_byte_offsets bufA ['a'] 1 false).2.2 rfl (by decide) (by decide)
      (by decide)).2.2 (by decide),
   ((C7_find_byte_offsets bufA ['a'] 2 true).2.1 rfl (by decide)).1 (by decide),
   by decide, by decide⟩

/-- **C8**: on the buffer `"a"` with the cursor at the buffer end (offset
`PositionToOffset(0,1) = 1`), `Editor.Find` calls
`FindNext(text, offset+1 = 2, ...)`; Go then evaluates `content[2:]` on a
1-byte string and panics with a slice-bounds error (`none` in the model)
instead of clamping, contradicting the claim (and spec §7). -/
theorem C8_findnext_out_of_range_panics :
    bufA.Length = 1 ∧ bufA.PositionToOffset 0 1 = 1 ∧
    bufA.FindNext ['a'] (1 + 1) true = none := by decide

end Vex
